import Mathlib

/-!
Shallow embedding of the grpccache repository (package `grpccache`):
the cache engine (`Cache.Get`, `Cache.Store`, `Cache.Clear`, `Cache.cacheKey`
from grpccache.go) and the cache-control codec (`CacheControl`,
`SetCacheControl`, `getCacheControl` from the MaxAge-based cache_control
source file).

Modelling conventions:
- bytes are `Nat` values (each byte < 256); byte strings are `List Nat`;
- `uint64` arithmetic is `Nat` with explicit reduction modulo 2^64
  (`add64`, `sub64`), matching wrap-around of the Go `size` field;
- `time.Time` and `time.Duration` are `Int` nanosecond counts
  (Go stores both as int64 nanoseconds);
- protobuf messages are identified with their deterministic wire bytes, so
  `proto.Marshal` is the identity on `List Nat` and `proto.Unmarshal`
  delivers the stored bytes back to the caller; the error paths of
  marshal/unmarshal are not exercised by any claim and are not modelled;
- the gRPC metadata type `metadata.MD` (a `map[string]string` in the
  vendored gRPC vintage used by this code) is an association list;
- the `KeyPart func(ctx) string` field is modelled by the string it returns
  for the call in question (`none` models a nil function pointer);
- the `Log bool` field and the log statements are pure observability and
  are omitted;
- the `sync.Mutex` serialises every operation, so each public operation is
  a pure state transformer on the locked state.
-/

/-! ### uint64 arithmetic -/

def u64Mod : Nat := 18446744073709551616

/-- Reduction modulo 2^64, the range of a Go uint64. -/
def u64 (n : Nat) : Nat := n % u64Mod

/-- Go uint64 addition. -/
def add64 (a b : Nat) : Nat := u64 (a + b)

/-- Go uint64 subtraction (wraps below zero exactly as Go does). -/
def sub64 (a b : Nat) : Nat := u64 (a + (u64Mod - u64 b))

/-! ### SHA-256 (crypto/sha256), used by Cache.cacheKey -/

/-- Reduction modulo 2^32 (uint32 arithmetic inside SHA-256). -/
def w32 (n : Nat) : Nat := n % 4294967296

/-- Rotate a 32-bit word right by n bits. -/
def rotr32 (x n : Nat) : Nat := w32 ((x >>> n) ||| (x <<< (32 - n)))

def shaCh (e f g : Nat) : Nat := (e &&& f) ^^^ ((e ^^^ 4294967295) &&& g)

def shaMaj (a b c : Nat) : Nat := (a &&& b) ^^^ (a &&& c) ^^^ (b &&& c)

def bigSigma0 (x : Nat) : Nat := rotr32 x 2 ^^^ rotr32 x 13 ^^^ rotr32 x 22

def bigSigma1 (x : Nat) : Nat := rotr32 x 6 ^^^ rotr32 x 11 ^^^ rotr32 x 25

def smallSigma0 (x : Nat) : Nat := rotr32 x 7 ^^^ rotr32 x 18 ^^^ (x >>> 3)

def smallSigma1 (x : Nat) : Nat := rotr32 x 17 ^^^ rotr32 x 19 ^^^ (x >>> 10)

/-- Round constants of SHA-256 (the fractional parts of the cube roots of
the first 64 primes, as 32-bit words, here in decimal). -/
def K256 : List Nat :=
  [1116352408, 1899447441, 3049323471, 3921009573, 961987163, 1508970993,
   2453635748, 2870763221, 3624381080, 310598401, 607225278, 1426881987,
   1925078388, 2162078206, 2614888103, 3248222580, 3835390401, 4022224774,
   264347078, 604807628, 770255983, 1249150122, 1555081692, 1996064986,
   2554220882, 2821834349, 2952996808, 3210313671, 3336571891, 3584528711,
   113926993, 338241895, 666307205, 773529912, 1294757372, 1396182291,
   1695183700, 1986661051, 2177026350, 2456956037, 2730485921, 2820302411,
   3259730800, 3345764771, 3516065817, 3600352804, 4094571909, 275423344,
   430227734, 506948616, 659060556, 883997877, 958139571, 1322822218,
   1537002063, 1747873779, 1955562222, 2024104815, 2227730452, 2361852424,
   2428436474, 2756734187, 3204031479, 3329325298]

/-- Working state of the SHA-256 compression function. -/
structure Sha256State where
  a : Nat
  b : Nat
  c : Nat
  d : Nat
  e : Nat
  f : Nat
  g : Nat
  h : Nat
deriving DecidableEq

def sha256Init : Sha256State :=
  ⟨1779033703, 3144134277, 1013904242, 2773480762,
   1359893119, 2600822924, 528734635, 1541459225⟩

def shaRound (st : Sha256State) (k w : Nat) : Sha256State :=
  let t1 := w32 (st.h + bigSigma1 st.e + shaCh st.e st.f st.g + k + w)
  let t2 := w32 (bigSigma0 st.a + shaMaj st.a st.b st.c)
  { a := w32 (t1 + t2), b := st.a, c := st.b, d := st.c,
    e := w32 (st.d + t1), f := st.e, g := st.f, h := st.g }

def shaRounds : Sha256State → List (Nat × Nat) → Sha256State
  | st, [] => st
  | st, (k, w) :: rest => shaRounds (shaRound st k w) rest

/-- Big-endian 4-byte grouping of a 64-byte block into 16 words. -/
def toWordsBE : List Nat → List Nat
  | b0 :: b1 :: b2 :: b3 :: rest =>
      (((b0 * 256 + b1) * 256 + b2) * 256 + b3) :: toWordsBE rest
  | _ => []

/-- Message-schedule extension; acc holds the words produced so far, most
recent first. -/
def schedExt : Nat → List Nat → List Nat
  | 0, acc => acc.reverse
  | n + 1, acc =>
      let w := w32 (smallSigma1 (acc.getD 1 0) + acc.getD 6 0 +
                    smallSigma0 (acc.getD 14 0) + acc.getD 15 0)
      schedExt n (w :: acc)

def sha256Compress (hsh : Sha256State) (block : List Nat) : Sha256State :=
  let ws := schedExt 48 (toWordsBE block).reverse
  let st := shaRounds hsh (K256.zip ws)
  { a := w32 (hsh.a + st.a), b := w32 (hsh.b + st.b), c := w32 (hsh.c + st.c),
    d := w32 (hsh.d + st.d), e := w32 (hsh.e + st.e), f := w32 (hsh.f + st.f),
    g := w32 (hsh.g + st.g), h := w32 (hsh.h + st.h) }

/-- Big-endian 8-byte rendering of the 64-bit message bit length. -/
def be64 (n : Nat) : List Nat :=
  [n / 72057594037927936 % 256, n / 281474976710656 % 256,
   n / 1099511627776 % 256, n / 4294967296 % 256,
   n / 16777216 % 256, n / 65536 % 256, n / 256 % 256, n % 256]

/-- SHA-256 padding: 0x80, zeros to 56 mod 64, then the bit length. -/
def padMsg (msg : List Nat) : List Nat :=
  let L := msg.length
  msg ++ 128 :: List.replicate ((119 - L % 64) % 64) 0 ++ be64 (u64 (8 * L))

/-- Splits a padded message into 64-byte blocks (fuel is the block count, so
the recursion is structural and kernel-reducible). -/
def toBlocksAux : Nat → List Nat → List (List Nat)
  | 0, _ => []
  | n + 1, bs => bs.take 64 :: toBlocksAux n (bs.drop 64)

def toBlocks (bs : List Nat) : List (List Nat) := toBlocksAux (bs.length / 64) bs

def wordBytesBE (w : Nat) : List Nat :=
  [w / 16777216 % 256, w / 65536 % 256, w / 256 % 256, w % 256]

/-- SHA-256 of a byte string, as the 32-byte big-endian digest. -/
def sha256 (msg : List Nat) : List Nat :=
  let st := (toBlocks (padMsg msg)).foldl sha256Compress sha256Init
  wordBytesBE st.a ++ wordBytesBE st.b ++ wordBytesBE st.c ++ wordBytesBE st.d ++
  wordBytesBE st.e ++ wordBytesBE st.f ++ wordBytesBE st.g ++ wordBytesBE st.h

/-! ### Standard base64 (encoding/base64 StdEncoding), used by Cache.cacheKey -/

def b64Char (n : Nat) : Char :=
  if n < 26 then Char.ofNat (65 + n)
  else if n < 52 then Char.ofNat (97 + (n - 26))
  else if n < 62 then Char.ofNat (48 + (n - 52))
  else if n = 62 then '+'
  else '/'

def base64Chars : List Nat → List Char
  | b0 :: b1 :: b2 :: rest =>
      let x := (b0 * 256 + b1) * 256 + b2
      b64Char (x / 262144) :: b64Char (x / 4096 % 64) :: b64Char (x / 64 % 64) ::
        b64Char (x % 64) :: base64Chars rest
  | [b0, b1] =>
      let x := b0 * 1024 + b1 * 4
      [b64Char (x / 4096), b64Char (x / 64 % 64), b64Char (x % 64), '=']
  | [b0] =>
      let x := b0 * 16
      [b64Char (x / 64), b64Char (x % 64), '=', '=']
  | [] => []

/-- Go base64.StdEncoding.EncodeToString. -/
def base64Std (bs : List Nat) : String := String.mk (base64Chars bs)

/-! ### Go time.Duration printing (time.Duration.String)

A duration is an int64 count of nanoseconds. The printer is translated from
the Go standard library (time/time.go: Duration.format, fmtFrac, fmtInt),
restated functionally: the Go code writes digits into a buffer right to
left, which corresponds to prepending characters here. -/

def digitChar (d : Nat) : Char := Char.ofNat (48 + d)

/-- Decimal digits of v, most significant first, written onto acc; mirrors
the Go fmtInt loop. The first argument is fuel (v itself suffices), keeping
the recursion structural. -/
def fmtIntAux : Nat → Nat → List Char → List Char
  | 0, _, acc => acc
  | fuel + 1, v, acc =>
      if v = 0 then acc else fmtIntAux fuel (v / 10) (digitChar (v % 10) :: acc)

/-- Go fmtInt: decimal rendering of v (a single 0 digit when v = 0). -/
def fmtInt (v : Nat) : List Char :=
  if v = 0 then ['0'] else fmtIntAux v v []

/-- Go fmtFrac loop: peels prec low-order decimal digits off v, printing a
digit once some lower digit was nonzero (trailing zeros are omitted).
Returns the printed characters, the remaining value, and the print flag. -/
def fmtFracLoop : Nat → Nat → Bool → List Char → List Char × Nat × Bool
  | v, 0, print, acc => (acc, v, print)
  | v, prec + 1, print, acc =>
      let digit := v % 10
      let print := print || decide (digit ≠ 0)
      let acc := if print then digitChar digit :: acc else acc
      fmtFracLoop (v / 10) prec print acc

/-- Go fmtFrac: the fraction of v over 10^prec as ".ddd" with trailing
zeros omitted (empty when the fraction is zero), plus v / 10^prec. -/
def fmtFrac (v prec : Nat) : List Char × Nat :=
  match fmtFracLoop v prec false [] with
  | (acc, v, print) => (if print then '.' :: acc else acc, v)

/-- Go Duration.format on the uint64 magnitude of the duration: the body
of the printed form, sign excluded. -/
def durationBody (u : Nat) : List Char :=
  if u < 1000000000 then
    if u = 0 then ['0', 's']
    else if u < 1000 then fmtInt u ++ ['n', 's']
    else if u < 1000000 then
      match fmtFrac u 3 with
      | (fr, v) => fmtInt v ++ fr ++ ['µ', 's']
    else
      match fmtFrac u 6 with
      | (fr, v) => fmtInt v ++ fr ++ ['m', 's']
  else
    match fmtFrac u 9 with
    | (fr, sec) =>
      let sPart := fmtInt (sec % 60) ++ fr ++ ['s']
      let mins := sec / 60
      if mins = 0 then sPart
      else
        let mPart := fmtInt (mins % 60) ++ 'm' :: sPart
        let hrs := mins / 60
        if hrs = 0 then mPart else fmtInt hrs ++ 'h' :: mPart

/-- Go Duration.String on an int64 nanosecond count. For the negative case
Go negates in uint64 (so the magnitude of the minimum int64 survives),
which Int.natAbs reproduces. -/
def durationString (d : Int) : String :=
  String.mk (if d < 0 then '-' :: durationBody d.natAbs else durationBody d.natAbs)

/-! ### Go time.ParseDuration

Translated from the Go standard library (time/format.go: ParseDuration,
leadingInt, leadingFraction), on lists of characters. Go scans bytes; on
the strings involved here every non-ASCII character (the micro sign) fails
the digit/dot byte tests exactly as the character does, so the character-
level scan agrees with the byte-level one. -/

def isDigitCh (c : Char) : Bool := decide (48 ≤ c.toNat ∧ c.toNat ≤ 57)

def chDigit (c : Char) : Nat := c.toNat - 48

/-- Go leadingInt: consumes leading digits, accumulating x; none models the
errLeadingInt overflow error. -/
def leadingInt : List Char → Nat → Option (Nat × List Char)
  | [], x => some (x, [])
  | c :: s, x =>
      if isDigitCh c then
        if x > 2 ^ 63 / 10 then none
        else
          let x := x * 10 + chDigit c
          if x > 2 ^ 63 then none
          else leadingInt s x
      else some (x, c :: s)

/-- Go leadingFraction: consumes digits after the decimal point. scale is
10^d for d accepted digits; Go tracks it in a float64, which is exact for
every digit count the printer can produce, so a Nat is faithful. Once an
overflow is detected further digits are consumed without effect. -/
def leadingFraction : List Char → Nat → Nat → Bool → Nat × Nat × List Char
  | [], x, scale, _ => (x, scale, [])
  | c :: s, x, scale, overflow =>
      if ¬ isDigitCh c then (x, scale, c :: s)
      else if overflow then leadingFraction s x scale overflow
      else if x > (2 ^ 63 - 1) / 10 then leadingFraction s x scale true
      else
        let y := x * 10 + chDigit c
        if y > 2 ^ 63 then leadingFraction s x scale true
        else leadingFraction s y (scale * 10) false

/-- Length of the unit token: characters up to the next digit or dot. -/
def unitLen : List Char → Nat
  | [] => 0
  | c :: s => if c = '.' ∨ isDigitCh c then 0 else unitLen s + 1

/-- Go unitMap: nanoseconds per unit token. -/
def unitVal : List Char → Option Nat
  | ['n', 's'] => some 1
  | ['u', 's'] => some 1000
  | ['µ', 's'] => some 1000
  | ['μ', 's'] => some 1000
  | ['m', 's'] => some 1000000
  | ['s'] => some 1000000000
  | ['m'] => some 60000000000
  | ['h'] => some 3600000000000
  | _ => none

/-- Optional fractional part of a component: a dot followed by
leadingFraction, or nothing. -/
def parseFrac : List Char → Nat × Nat × List Char × Bool
  | '.' :: s1' =>
      match leadingFraction s1' 0 1 false with
      | (f, scale, s2) => (f, scale, s2, decide (s2.length ≠ s1'.length))
  | s1 => (0, 1, s1, false)

/-- One pass of the ParseDuration component loop; fuel bounds the number of
components (each component consumes at least one character, so the length
of the input is enough fuel). d accumulates nanoseconds in uint64. Go
computes the fractional contribution as uint64(float64(f)*(float64(unit)/
scale)); on every string the printer emits, scale divides unit and the
product is below 2^53, so the exact f * unit / scale is faithful there. -/
def parseLoop : Nat → List Char → Nat → Except String Nat
  | 0, _, _ => .error "time: invalid duration"
  | _ + 1, [], d => .ok d
  | fuel + 1, c :: s0, d =>
      if ¬ (c = '.' ∨ isDigitCh c) then .error "time: invalid duration"
      else
        match leadingInt (c :: s0) 0 with
        | none => .error "time: invalid duration"
        | some (v, s1) =>
          let pre := decide (s1.length ≠ (c :: s0).length)
          match parseFrac s1 with
          | (f, scale, s2, post) =>
            if ¬ pre ∧ ¬ post then .error "time: invalid duration"
            else
              let i := unitLen s2
              if i = 0 then .error "time: missing unit in duration"
              else
                match unitVal (s2.take i) with
                | none => .error "time: unknown unit in duration"
                | some unit =>
                  if v > 2 ^ 63 / unit then .error "time: invalid duration"
                  else
                    let v := v * unit
                    let v := if f > 0 then u64 (v + f * unit / scale) else v
                    if f > 0 ∧ v > 2 ^ 63 then .error "time: invalid duration"
                    else
                      let d := u64 (d + v)
                      if d > 2 ^ 63 then .error "time: invalid duration"
                      else parseLoop fuel (s2.drop i) d

/-- Go sign consumption at the head of ParseDuration. -/
def parseSign : List Char → Bool × List Char
  | [] => (false, [])
  | c :: rest =>
      if c = '-' then (true, rest)
      else if c = '+' then (false, rest)
      else (false, c :: rest)

/-- Go time.ParseDuration on an int64-nanosecond result. -/
def parseDuration (s : String) : Except String Int :=
  match parseSign s.data with
  | (neg, cs) =>
    if cs = ['0'] then .ok 0
    else if cs = [] then .error "time: invalid duration"
    else
      match parseLoop cs.length cs 0 with
      | .error e => .error e
      | .ok d =>
        if neg then .ok (-(d : Int))
        else if d > 2 ^ 63 - 1 then .error "time: invalid duration"
        else .ok (d : Int)

/-! ### Cache-control codec (cache_control source, MaxAge wire format) -/

/-- CacheControl from the cache-control source file: MaxAge is a
time.Duration (int64 nanoseconds). -/
structure CacheControl where
  MaxAge : Int
deriving DecidableEq

/-- Go method CacheControl.cacheable: cc.MaxAge > 0. -/
def CacheControl.cacheable (cc : CacheControl) : Bool := decide (0 < cc.MaxAge)

/-- Go metadata.MD of the gRPC vintage vendored here: map from string keys
to string values, modelled as an association list. -/
abbrev MD := List (String × String)

/-- Map lookup in metadata. -/
def mdLookup : MD → String → Option String
  | [], _ => none
  | (k, v) :: rest, key => if k = key then some v else mdLookup rest key

/-- Go SetCacheControl: writes the trailer metadata
MD\x7b"cache-control:max-age": cc.MaxAge.String()\x7d. The grpc.SetTrailer
transport call is external; the value modelled is the metadata it sends. -/
def SetCacheControl (cc : CacheControl) : MD :=
  [("cache-control:max-age", durationString cc.MaxAge)]

/-- Go getCacheControl: absent key gives (nil, nil); a present key is
parsed with time.ParseDuration, whose failure propagates. -/
def getCacheControl (md : MD) : Except String (Option CacheControl) :=
  match mdLookup md "cache-control:max-age" with
  | some maxAgeStr =>
      match parseDuration maxAgeStr with
      | .error e => .error e
      | .ok maxAge => .ok (some { MaxAge := maxAge })
  | none => .ok none

/-! ### The cache engine (grpccache.go) -/

/-- Go cacheEntry: stored result bytes, its cache control, and the absolute
expiry time (int64 nanoseconds). -/
structure cacheEntry where
  protoBytes : List Nat
  cc : CacheControl
  expiry : Int
deriving DecidableEq

/-- Go Cache. results is an Option so that the nil map of the zero value is
distinguishable from an allocated empty map; MaxSize and size are uint64.
keyPart models the KeyPart field (none = nil function; some p = the
partition string the function returns for the call at hand). -/
structure Cache where
  results : Option (List (String × cacheEntry))
  MaxSize : Nat
  size : Nat
  keyPart : Option String
deriving DecidableEq

/-- Reading through a possibly-nil Go map: a nil map reads as empty. -/
def entries (c : Cache) : List (String × cacheEntry) :=
  match c.results with
  | none => []
  | some m => m

/-- Go map lookup on the entry map. -/
def mapLookup : List (String × cacheEntry) → String → Option cacheEntry
  | [], _ => none
  | (k, v) :: rest, key => if k = key then some v else mapLookup rest key

/-- Go delete on the entry map. -/
def mapErase : List (String × cacheEntry) → String → List (String × cacheEntry)
  | [], _ => []
  | p :: rest, key => if p.1 = key then mapErase rest key else p :: mapErase rest key

/-- Go map assignment on the entry map. -/
def mapSet (m : List (String × cacheEntry)) (key : String) (v : cacheEntry) :
    List (String × cacheEntry) :=
  (key, v) :: mapErase m key

/-- Go reads a missing key as the zero value, whose protoBytes has length
zero; this models len(c.results[k].protoBytes). -/
def lookupLen (o : Option cacheEntry) : Nat :=
  match o with
  | some e => e.protoBytes.length
  | none => 0

/-- Go method Cache.cacheKey: method + "-" + base64(sha256(marshal(arg))),
with "-" + KeyPart(ctx) appended when KeyPart is non-nil. The argument
message is identified with its marshalled bytes. -/
def Cache.cacheKey (keyPart : Option String) (method : String)
    (argBytes : List Nat) : String :=
  let s := method ++ "-" ++ base64Std (sha256 argBytes)
  match keyPart with
  | none => s
  | some kp => s ++ "-" ++ kp

/-- Go method Cache.Get at an explicit now (the value time.Now() returns
inside the locked section). Returns ((cached, result written), new state);
the unmarshal of a hit is the identity on the stored bytes. -/
def Cache.Get (c : Cache) (now : Int) (method : String) (arg : List Nat) :
    (Bool × Option (List Nat)) × Cache :=
  let key := Cache.cacheKey c.keyPart method arg
  match mapLookup (entries c) key with
  | some entry =>
      if now > entry.expiry then
        ((false, none),
         { c with results := some (mapErase (entries c) key),
                  size := sub64 c.size entry.protoBytes.length })
      else ((true, some entry.protoBytes), c)
  | none => ((false, none), c)

/-- The afterSize computation of Cache.Store: current size, minus the
payload length of an entry already at the key, plus the new payload
length, in uint64 arithmetic. -/
def storeAfterSize (c : Cache) (key : String) (dataLen : Nat) : Nat :=
  let afterSize :=
    match mapLookup (entries c) key with
    | some prev => sub64 c.size prev.protoBytes.length
    | none => c.size
  add64 afterSize dataLen

/-- Go method Cache.Store at an explicit now. The first let models the lazy
initialisation of the nil results map. On the size-pressure path the Go
code deletes the entry at the key and only then reads
len(c.results[cacheKey].protoBytes) to decrement c.size, so it reads the
zero value of the just-deleted key; the model reproduces that read. -/
def Cache.Store (c : Cache) (now : Int) (method : String) (arg : List Nat)
    (result : List Nat) (trailer : MD) : Except String Unit × Cache :=
  let m := entries c
  let data := result
  let key := Cache.cacheKey c.keyPart method arg
  match getCacheControl trailer with
  | .error e => (.error e, { c with results := some m })
  | .ok none => (.ok (), { c with results := some m })
  | .ok (some cc) =>
      if cc.cacheable then
        let afterSize := storeAfterSize c key data.length
        if c.MaxSize ≠ 0 ∧ afterSize > c.MaxSize then
          match mapLookup m key with
          | some _ =>
              let m2 := mapErase m key
              (.ok (), { c with results := some m2,
                                size := sub64 c.size (lookupLen (mapLookup m2 key)) })
          | none => (.ok (), { c with results := some m })
        else
          (.ok (),
           { c with
               results := some (mapSet m key
                 { protoBytes := data, cc := cc, expiry := now + cc.MaxAge }),
               size := afterSize })
      else (.ok (), { c with results := some m })

/-- Go method Cache.Clear. -/
def Cache.Clear (c : Cache) : Cache := { c with results := some [], size := 0 }

/-- The zero value of the Cache struct: nil map, zero sizes, nil KeyPart. -/
def zeroCache : Cache := { results := none, MaxSize := 0, size := 0, keyPart := none }

/-- Sum of the stored payload lengths over the entries of the map. -/
def sumLens (m : List (String × cacheEntry)) : Nat :=
  (m.map (fun p => p.2.protoBytes.length)).sum

/-! ### Helper lemmas about the embedded map and uint64 operations -/

theorem u64_small {a : Nat} (h : a < u64Mod) : u64 a = a := Nat.mod_eq_of_lt h

theorem add64_eq {a b : Nat} (h : a + b < u64Mod) : add64 a b = a + b := by
  simpa [add64] using u64_small h

theorem sub64_eq {a b : Nat} (hb : b ≤ a) (ha : a < u64Mod) : sub64 a b = a - b := by
  have hbm : b < u64Mod := lt_of_le_of_lt hb ha
  simp only [sub64, u64, u64Mod] at *
  omega

theorem sub64_zero {a : Nat} (ha : a < u64Mod) : sub64 a 0 = a :=
  sub64_eq (Nat.zero_le a) ha

theorem mapLookup_erase_self (m : List (String × cacheEntry)) (k : String) :
    mapLookup (mapErase m k) k = none := by
  induction m with
  | nil => rfl
  | cons p rest ih =>
      by_cases h : p.1 = k
      · simpa [mapErase, h] using ih
      · simpa [mapErase, mapLookup, h] using ih

theorem mapErase_of_lookup_none (m : List (String × cacheEntry)) (k : String)
    (h : mapLookup m k = none) : mapErase m k = m := by
  induction m with
  | nil => rfl
  | cons p rest ih =>
      simp only [mapLookup] at h
      by_cases hp : p.1 = k
      · simp [hp] at h
      · simp only [mapErase, if_neg hp]
        simp only [if_neg hp] at h
        rw [ih h]

theorem mapLookup_set_self (m : List (String × cacheEntry)) (k : String)
    (v : cacheEntry) : mapLookup (mapSet m k v) k = some v := by
  simp [mapSet, mapLookup]

/-- Get consults the state only through its entries and its key parts, so
two caches agreeing there return the same (cached, result) pair. -/
theorem get_fst_congr (c c' : Cache) (h1 : entries c' = entries c)
    (h2 : c'.keyPart = c.keyPart) (t : Int) (m : String) (a : List Nat) :
    (Cache.Get c' t m a).1 = (Cache.Get c t m a).1 := by
  simp only [Cache.Get, h1, h2]
  cases mapLookup (entries c) (Cache.cacheKey c.keyPart m a) with
  | none => rfl
  | some e => by_cases h : t > e.expiry <;> simp [h]

/-! ### Concrete scenario material shared by several claims -/

/-- Trailer carrying the cacheable directive max-age = 1s. -/
def tr1s : MD := [("cache-control:max-age", "1s")]

/-! ### C9: key derivation is deterministic -/

/-- C9: cache-key derivation is deterministic: byte-identical request
serializations to the same method under the same partition key derive
equal keys. The key is a pure function of (partition key, method,
serialized request bytes) alone — the embedding of Cache.cacheKey takes no
other input, mirroring that the Go code feeds only these into
sha256/base64 with no randomness or per-process salt. -/
theorem C9_cacheKey_deterministic (kp : Option String) (method : String)
    (a1 a2 : List Nat) (h : a1 = a2) :
    Cache.cacheKey kp method a1 = Cache.cacheKey kp method a2 := by
  rw [h]

set_option maxRecDepth 40000 in
/-- Witness for C9 at a concrete partition key, method and request. -/
theorem C9_witness :
    Cache.cacheKey (some "tenant") "Test.M" [1, 2, 3] =
    Cache.cacheKey (some "tenant") "Test.M" [1, 2, 3] :=
  C9_cacheKey_deterministic (some "tenant") "Test.M" [1, 2, 3] [1, 2, 3] rfl

/-! ### C10: the zero-value Cache is safe at the public interface -/

/-- C10: on the zero-value Cache (nil results map, size 0, MaxSize 0,
nil KeyPart) every Get is a plain miss returning (false, nil) with the
state unchanged, and Store (like Clear) always leaves an allocated
results map behind — the lazy initialisation at the top of Store runs
before any map write, so no Get/Store/Clear sequence started from the
zero value ever operates a map write on the nil map. -/
theorem C10_zero_value_safe :
    (∀ (now : Int) (method : String) (arg : List Nat),
       Cache.Get zeroCache now method arg = ((false, none), zeroCache)) ∧
    (∀ (c : Cache) (now : Int) (method : String) (arg data : List Nat) (trailer : MD),
       ((Cache.Store c now method arg data trailer).2).results.isSome = true) ∧
    (∀ c : Cache, (Cache.Clear c).results.isSome = true) := by
  refine ⟨fun now method arg => rfl, fun c now method arg data trailer => ?_, fun c => rfl⟩
  simp only [Cache.Store]
  cases getCacheControl trailer with
  | error e => rfl
  | ok o =>
      cases o with
      | none => rfl
      | some cc =>
          by_cases hc : cc.cacheable
          · simp only [hc, if_true]
            by_cases hover : c.MaxSize ≠ 0 ∧
                storeAfterSize c (Cache.cacheKey c.keyPart method arg)
                  data.length > c.MaxSize
            · rw [if_pos hover]
              cases mapLookup (entries c) (Cache.cacheKey c.keyPart method arg) <;> rfl
            · rw [if_neg hover]; rfl
          · simp [hc]

/-! ### C5: an expired entry is never returned -/

/-- C5: whenever Get finds the entry at the derived key with its expiry in
the past (now strictly after expiry, the Go time.Now().After test), it
deletes the entry, decrements the size by the payload length, and returns
(false, nil) rather than the entry; afterwards the key is absent. -/
theorem C5_expired_never_returned (c : Cache) (now : Int) (method : String)
    (arg : List Nat) (e : cacheEntry)
    (hlook : mapLookup (entries c) (Cache.cacheKey c.keyPart method arg) = some e)
    (hexp : now > e.expiry) :
    Cache.Get c now method arg =
      ((false, none),
       { c with
           results := some (mapErase (entries c) (Cache.cacheKey c.keyPart method arg)),
           size := sub64 c.size e.protoBytes.length }) ∧
    mapLookup (entries (Cache.Get c now method arg).2)
      (Cache.cacheKey c.keyPart method arg) = none := by
  have h1 : Cache.Get c now method arg =
      ((false, none),
       { c with
           results := some (mapErase (entries c) (Cache.cacheKey c.keyPart method arg)),
           size := sub64 c.size e.protoBytes.length }) := by
    simp only [Cache.Get, hlook]
    rw [if_pos hexp]
  refine ⟨h1, ?_⟩
  rw [h1]
  exact mapLookup_erase_self _ _

/-- Concrete cache with one live-shaped but expired entry, for C5. -/
def cW5 : Cache :=
  { results := some [(Cache.cacheKey none "W5" [1], ⟨[7], ⟨5⟩, 10⟩)],
    MaxSize := 0, size := 1, keyPart := none }

set_option maxRecDepth 40000 in
/-- Witness for C5: a Get at time 11 on an entry that expired at 10. -/
theorem C5_witness :
    Cache.Get cW5 11 "W5" [1] =
      ((false, none),
       { cW5 with
           results := some (mapErase (entries cW5) (Cache.cacheKey cW5.keyPart "W5" [1])),
           size := sub64 cW5.size 1 }) ∧
    mapLookup (entries (Cache.Get cW5 11 "W5" [1]).2)
      (Cache.cacheKey cW5.keyPart "W5" [1]) = none :=
  C5_expired_never_returned cW5 11 "W5" [1] ⟨[7], ⟨5⟩, 10⟩ (by decide) (by decide)

/-! ### C4: a non-cacheable Store is a silent no-op -/

/-- C4: a Store whose trailer carries no cache-control directive, or one
whose MaxAge is not positive, returns nil (not an error), leaves the
entry set and the size untouched, and every later Get answers exactly as
it would have before the Store. -/
theorem C4_noncacheable_store_is_noop (c : Cache) (now : Int) (method : String)
    (arg data : List Nat) (trailer : MD)
    (h : getCacheControl trailer = .ok none ∨
         ∃ d : Int, d ≤ 0 ∧ getCacheControl trailer = .ok (some ⟨d⟩)) :
    (Cache.Store c now method arg data trailer).1 = .ok () ∧
    entries (Cache.Store c now method arg data trailer).2 = entries c ∧
    (Cache.Store c now method arg data trailer).2.size = c.size ∧
    ∀ (t : Int) (m : String) (a : List Nat),
      ((Cache.Store c now method arg data trailer).2.Get t m a).1 =
        (c.Get t m a).1 := by
  have hst : Cache.Store c now method arg data trailer =
      (.ok (), { c with results := some (entries c) }) := by
    rcases h with h | ⟨d, hd, h⟩
    · simp only [Cache.Store, h]
    · have hcc : ({ MaxAge := d } : CacheControl).cacheable = false := by
        simp only [CacheControl.cacheable, decide_eq_false_iff_not]
        omega
      simp only [Cache.Store, h, hcc, Bool.false_eq_true, if_false]
  refine ⟨by rw [hst], by rw [hst]; rfl, by rw [hst], fun t m a => ?_⟩
  rw [hst]
  exact get_fst_congr c { c with results := some (entries c) } rfl rfl t m a

/-- Trailer carrying the non-cacheable directive max-age = -5s. -/
def trNeg : MD := [("cache-control:max-age", "-5s")]

set_option maxRecDepth 40000 in
/-- Witness for C4 with a present but non-positive directive. -/
theorem C4_witness :
    (Cache.Store zeroCache 0 "W4" [2] [1, 2] trNeg).1 = .ok () ∧
    entries (Cache.Store zeroCache 0 "W4" [2] [1, 2] trNeg).2 = entries zeroCache ∧
    (Cache.Store zeroCache 0 "W4" [2] [1, 2] trNeg).2.size = zeroCache.size ∧
    ((Cache.Store zeroCache 0 "W4" [2] [1, 2] trNeg).2.Get 1 "W4" [2]).1 =
      (zeroCache.Get 1 "W4" [2]).1 := by
  have h := C4_noncacheable_store_is_noop zeroCache 0 "W4" [2] [1, 2] trNeg
    (Or.inr ⟨-5000000000, by decide, by rfl⟩)
  exact ⟨h.1, h.2.1, h.2.2.1, h.2.2.2 1 "W4" [2]⟩

/-! ### C8: decoding tolerates absence, rejects malformed values -/

/-- C8: with no cache-control key in the trailer, getCacheControl returns
(nil, nil) and Store treats the result as not cacheable, returning nil and
leaving every entry and the size unchanged; with the key present but
unparsable, getCacheControl returns the parse error and Store propagates
exactly that error, again leaving entries and size unchanged. -/
theorem C8_absent_tolerated_malformed_rejected (c : Cache) (now : Int)
    (method : String) (arg data : List Nat) (trailer : MD) :
    (mdLookup trailer "cache-control:max-age" = none →
       getCacheControl trailer = .ok none ∧
       (Cache.Store c now method arg data trailer).1 = .ok () ∧
       entries (Cache.Store c now method arg data trailer).2 = entries c ∧
       (Cache.Store c now method arg data trailer).2.size = c.size) ∧
    (∀ s err : String, mdLookup trailer "cache-control:max-age" = some s →
       parseDuration s = .error err →
       getCacheControl trailer = .error err ∧
       (Cache.Store c now method arg data trailer).1 = .error err ∧
       entries (Cache.Store c now method arg data trailer).2 = entries c ∧
       (Cache.Store c now method arg data trailer).2.size = c.size) := by
  constructor
  · intro h
    have hg : getCacheControl trailer = .ok none := by
      simp only [getCacheControl, h]
    have hst : Cache.Store c now method arg data trailer =
        (.ok (), { c with results := some (entries c) }) := by
      simp only [Cache.Store, hg]
    exact ⟨hg, by rw [hst], by rw [hst]; rfl, by rw [hst]⟩
  · intro s err hs hp
    have hg : getCacheControl trailer = .error err := by
      simp only [getCacheControl, hs, hp]
    have hst : Cache.Store c now method arg data trailer =
        (.error err, { c with results := some (entries c) }) := by
      simp only [Cache.Store, hg]
    exact ⟨hg, by rw [hst], by rw [hst]; rfl, by rw [hst]⟩

/-- Trailer whose cache-control value no duration parser accepts. -/
def trBad : MD := [("cache-control:max-age", "abc")]

set_option maxRecDepth 40000 in
/-- Witness for C8 at the malformed value "abc". -/
theorem C8_witness :
    getCacheControl trBad = .error "time: invalid duration" ∧
    (Cache.Store zeroCache 0 "W8" [3] [1] trBad).1 = .error "time: invalid duration" ∧
    entries (Cache.Store zeroCache 0 "W8" [3] [1] trBad).2 = entries zeroCache ∧
    (Cache.Store zeroCache 0 "W8" [3] [1] trBad).2.size = zeroCache.size :=
  (C8_absent_tolerated_malformed_rejected zeroCache 0 "W8" [3] [1] trBad).2
    "abc" "time: invalid duration" (by rfl) (by rfl)

/-! ### C1: the size bookkeeping invariant, and the slip that breaks it -/

/-- Cache for the C1 run: MaxSize 1 and nothing stored yet. -/
def c1a : Cache := { results := none, MaxSize := 1, size := 0, keyPart := none }

/-- After storing a 1-byte result under key "M1"/[0]: entry present, size 1. -/
def c1b : Cache := (Cache.Store c1a 0 "M1" [0] [7] tr1s).2

/-- After a second Store at the same key whose 2-byte payload overflows
MaxSize: the rejection path deletes the old entry but, because the Go code
reads len(c.results[cacheKey].protoBytes) after the delete, decrements the
size by zero. -/
def c1c : Cache := (Cache.Store c1b 0 "M1" [0] [8, 9] tr1s).2

set_option maxRecDepth 40000 in
/-- C1 is violated by the code: after the second Store of the run (which
returns nil), the results map is empty yet size is still 1, so currentSize
no longer equals the sum of len(protoBytes) over the live entries. -/
theorem C1_size_invariant_violated :
    (Cache.Store c1b 0 "M1" [0] [8, 9] tr1s).1 = .ok () ∧
    c1b.size = sumLens (entries c1b) ∧
    c1c.size = 1 ∧
    sumLens (entries c1c) = 0 ∧
    c1c.size ≠ sumLens (entries c1c) :=
  ⟨rfl, by decide, by decide, by decide, by decide⟩

/-! ### C2: what a size-rejected Store does to the occupied key -/

/-- Derived key of the C2 counterexample call. -/
def ceKey : String := Cache.cacheKey none "CE" [4]

/-- Cache holding a 1-byte entry at the counterexample key, MaxSize 1. -/
def c2pre : Cache :=
  { results := some [(ceKey, ⟨[7], ⟨1000000000⟩, 99⟩)],
    MaxSize := 1, size := 1, keyPart := none }

set_option maxRecDepth 40000 in
/-- C2 as stated is false: this Store is rejected for size (MaxSize is 1,
the new size would be 2), yet the entry previously stored at the derived
key is removed, so the cache state is not left unchanged in entry content
for that key. -/
theorem C2_counterexample :
    c2pre.MaxSize ≠ 0 ∧
    storeAfterSize c2pre ceKey 2 > c2pre.MaxSize ∧
    (Cache.Store c2pre 0 "CE" [4] [8, 9] tr1s).1 = .ok () ∧
    mapLookup (entries c2pre) ceKey = some ⟨[7], ⟨1000000000⟩, 99⟩ ∧
    mapLookup (entries (Cache.Store c2pre 0 "CE" [4] [8, 9] tr1s).2) ceKey = none :=
  ⟨by decide, by decide, rfl, by decide, by decide⟩

/-- C2 amended: a Store rejected under the size bound (MaxSize nonzero and
the would-be new size above it) writes no entry for the derived key,
removes any entry already occupying that key, returns nil, and does not
increase currentSize (so it cannot push it beyond MaxSize). -/
theorem C2_amended_reject_purges_key (c : Cache) (now : Int) (method : String)
    (arg data : List Nat) (trailer : MD) (cc : CacheControl) (key : String)
    (hkey : key = Cache.cacheKey c.keyPart method arg)
    (hcc : getCacheControl trailer = .ok (some cc))
    (hpos : 0 < cc.MaxAge)
    (hmax : c.MaxSize ≠ 0)
    (hover : storeAfterSize c key data.length > c.MaxSize)
    (hsz : c.size < u64Mod) :
    (Cache.Store c now method arg data trailer).1 = .ok () ∧
    mapLookup (entries (Cache.Store c now method arg data trailer).2) key = none ∧
    entries (Cache.Store c now method arg data trailer).2 = mapErase (entries c) key ∧
    (Cache.Store c now method arg data trailer).2.size = c.size := by
  have hc : cc.cacheable = true := by
    simp only [CacheControl.cacheable, decide_eq_true_eq]
    exact hpos
  simp only [Cache.Store, hcc, hc, if_true, ← hkey]
  rw [if_pos ⟨hmax, hover⟩]
  cases hprev : mapLookup (entries c) key with
  | some e =>
      refine ⟨rfl, ?_, rfl, ?_⟩
      · exact mapLookup_erase_self _ _
      · show sub64 c.size (lookupLen (mapLookup (mapErase (entries c) key) key)) = c.size
        rw [mapLookup_erase_self]
        exact sub64_zero hsz
  | none =>
      refine ⟨rfl, ?_, ?_, rfl⟩
      · show mapLookup (entries c) key = none
        exact hprev
      · show entries c = mapErase (entries c) key
        exact (mapErase_of_lookup_none _ _ hprev).symm

/-- Cache for the C2 amended witness: empty, MaxSize 1. -/
def c2wPre : Cache := { results := none, MaxSize := 1, size := 0, keyPart := none }

set_option maxRecDepth 40000 in
/-- Witness for the amended C2: a 2-byte payload rejected under MaxSize 1. -/
theorem C2_amended_witness :
    (Cache.Store c2wPre 0 "CW" [5] [8, 9] tr1s).1 = .ok () ∧
    mapLookup (entries (Cache.Store c2wPre 0 "CW" [5] [8, 9] tr1s).2)
      (Cache.cacheKey none "CW" [5]) = none ∧
    entries (Cache.Store c2wPre 0 "CW" [5] [8, 9] tr1s).2 =
      mapErase (entries c2wPre) (Cache.cacheKey none "CW" [5]) ∧
    (Cache.Store c2wPre 0 "CW" [5] [8, 9] tr1s).2.size = c2wPre.size :=
  C2_amended_reject_purges_key c2wPre 0 "CW" [5] [8, 9] tr1s ⟨1000000000⟩
    (Cache.cacheKey none "CW" [5]) rfl (by rfl) (by decide) (by decide)
    (by decide) (by decide)

/-! ### C3: the rejected-Store purge does not decrement the size -/

/-- Derived key of the C3 run. -/
def c3key : String := Cache.cacheKey none "K3" [6]

/-- Cache holding a 3-byte entry at the C3 key, MaxSize 3, size 3. -/
def c3pre : Cache :=
  { results := some [(c3key, ⟨[1, 2, 3], ⟨1000000000⟩, 50⟩)],
    MaxSize := 3, size := 3, keyPart := none }

/-- State after the size-rejected Store of a 4-byte payload at the C3 key. -/
def c3post : Cache := (Cache.Store c3pre 0 "K3" [6] [4, 4, 4, 4] tr1s).2

set_option maxRecDepth 40000 in
/-- C3 against the code: the rejected Store removes the 3-byte entry that
occupied the key and returns nil, but currentSize stays 3 instead of
dropping by the removed payload length to 0 — the Go code reads the length
of the entry after deleting it, obtaining the zero value. -/
theorem C3_reject_removes_but_size_stays :
    c3pre.MaxSize ≠ 0 ∧
    storeAfterSize c3pre c3key 4 > c3pre.MaxSize ∧
    (Cache.Store c3pre 0 "K3" [6] [4, 4, 4, 4] tr1s).1 = .ok () ∧
    mapLookup (entries c3post) c3key = none ∧
    entries c3post = [] ∧
    c3post.size = 3 :=
  ⟨by decide, by decide, rfl, by decide, by decide, by decide⟩

/-! ### C6: successful Store fixes the expiry; Get honours it -/

/-- Unwrapped value of the Store size computation when the current size is
consistent (at least the occupying entry, with headroom below 2^64). -/
theorem storeAfterSize_spec (c : Cache) (key : String) (dataLen : Nat)
    (hsz : c.size + dataLen < u64Mod)
    (hprev : lookupLen (mapLookup (entries c) key) ≤ c.size) :
    storeAfterSize c key dataLen =
      c.size - lookupLen (mapLookup (entries c) key) + dataLen := by
  unfold storeAfterSize
  cases hp : mapLookup (entries c) key with
  | none =>
      simp only [hp, lookupLen]
      rw [add64_eq hsz]
      omega
  | some prev =>
      rw [hp] at hprev
      simp only [hp, lookupLen] at *
      rw [sub64_eq hprev (by omega), add64_eq (by omega)]

/-- C6: a successful Store under a cacheable directive MaxAge = d writes
the entry with expiry fixed at now + d; any Get at or before that instant
returns the stored bytes (the deserialization of the stored serialization)
and leaves the state untouched, and any Get strictly after it removes the
entry, returns a miss, and lowers the size by exactly the payload
length. -/
theorem C6_store_ttl (c : Cache) (now : Int) (method : String)
    (arg data : List Nat) (trailer : MD) (d : Int) (key : String)
    (hkey : key = Cache.cacheKey c.keyPart method arg)
    (hcc : getCacheControl trailer = .ok (some ⟨d⟩))
    (hd : 0 < d)
    (hfit : ¬ (c.MaxSize ≠ 0 ∧ storeAfterSize c key data.length > c.MaxSize))
    (hsz : c.size + data.length < u64Mod)
    (hprev : lookupLen (mapLookup (entries c) key) ≤ c.size) :
    (Cache.Store c now method arg data trailer).1 = .ok () ∧
    mapLookup (entries (Cache.Store c now method arg data trailer).2) key =
      some ⟨data, ⟨d⟩, now + d⟩ ∧
    (∀ t : Int, t ≤ now + d →
       Cache.Get (Cache.Store c now method arg data trailer).2 t method arg =
         ((true, some data), (Cache.Store c now method arg data trailer).2)) ∧
    (∀ t : Int, now + d < t →
       Cache.Get (Cache.Store c now method arg data trailer).2 t method arg =
         ((false, none),
          { (Cache.Store c now method arg data trailer).2 with
              results := some (mapErase
                (entries (Cache.Store c now method arg data trailer).2) key),
              size := sub64 (Cache.Store c now method arg data trailer).2.size
                        data.length }) ∧
       sub64 (Cache.Store c now method arg data trailer).2.size data.length
           + data.length =
         (Cache.Store c now method arg data trailer).2.size) := by
  have hc : ({ MaxAge := d } : CacheControl).cacheable = true := by
    simp only [CacheControl.cacheable, decide_eq_true_eq]
    exact hd
  have hst : Cache.Store c now method arg data trailer =
      (.ok (),
       { c with
           results := some (mapSet (entries c) key
             { protoBytes := data, cc := ⟨d⟩, expiry := now + d }),
           size := storeAfterSize c key data.length }) := by
    simp only [Cache.Store, hcc, hc, if_true, ← hkey]
    rw [if_neg hfit]
  have hsize : storeAfterSize c key data.length =
      c.size - lookupLen (mapLookup (entries c) key) + data.length :=
    storeAfterSize_spec c key data.length hsz hprev
  refine ⟨by rw [hst], ?_, ?_, ?_⟩
  · rw [hst]
    exact mapLookup_set_self _ _ _
  · intro t ht
    rw [hst]
    simp only [Cache.Get, entries, ← hkey, mapLookup_set_self]
    rw [if_neg (not_lt.mpr ht)]
  · intro t ht
    constructor
    · rw [hst]
      simp only [Cache.Get, entries, ← hkey, mapLookup_set_self]
      rw [if_pos ht]
    · rw [hst]
      show sub64 (storeAfterSize c key data.length) data.length + data.length =
        storeAfterSize c key data.length
      rw [hsize]
      rw [sub64_eq (Nat.le_add_left _ _) (by omega)]
      omega

set_option maxRecDepth 40000 in
/-- Witness for C6: a 2-byte result stored at time 0 under max-age 1s is
returned by a Get at the expiry instant and gone (with the size lowered by
2) for a Get one nanosecond later. -/
theorem C6_witness :
    (Cache.Store zeroCache 0 "W6" [0] [3, 4] tr1s).1 = .ok () ∧
    mapLookup (entries (Cache.Store zeroCache 0 "W6" [0] [3, 4] tr1s).2)
      (Cache.cacheKey none "W6" [0]) =
      some ⟨[3, 4], ⟨1000000000⟩, 0 + 1000000000⟩ ∧
    Cache.Get (Cache.Store zeroCache 0 "W6" [0] [3, 4] tr1s).2 1000000000 "W6" [0] =
      ((true, some [3, 4]), (Cache.Store zeroCache 0 "W6" [0] [3, 4] tr1s).2) ∧
    sub64 (Cache.Store zeroCache 0 "W6" [0] [3, 4] tr1s).2.size [3, 4].length
        + [3, 4].length =
      (Cache.Store zeroCache 0 "W6" [0] [3, 4] tr1s).2.size := by
  have h := C6_store_ttl zeroCache 0 "W6" [0] [3, 4] tr1s 1000000000
    (Cache.cacheKey none "W6" [0]) rfl (by rfl) (by decide) (by decide)
    (by decide) (by decide)
  exact ⟨h.1, h.2.1, h.2.2.1 1000000000 (by decide),
    (h.2.2.2 1000000001 (by decide)).2⟩

/-! ### C7 groundwork: reading printed digit strings back

valFrom a ds is the value the Go digit-consuming loops accumulate when they
start from a and read the digit characters ds left to right. -/

def valFrom (a : Nat) (ds : List Char) : Nat :=
  ds.foldl (fun x c => x * 10 + chDigit c) a

theorem valFrom_nil (a : Nat) : valFrom a [] = a := rfl

theorem valFrom_cons (a : Nat) (c : Char) (ds : List Char) :
    valFrom a (c :: ds) = valFrom (a * 10 + chDigit c) ds := rfl

theorem valFrom_append (a : Nat) (l1 l2 : List Char) :
    valFrom a (l1 ++ l2) = valFrom (valFrom a l1) l2 :=
  List.foldl_append _ _ _ _

theorem valFrom_ge (a : Nat) (ds : List Char) : a ≤ valFrom a ds := by
  induction ds generalizing a with
  | nil => exact Nat.le_refl a
  | cons c ds ih =>
      rw [valFrom_cons]
      exact le_trans (by omega) (ih (a * 10 + chDigit c))

/-- Go leadingInt consumes exactly a printed digit block: if ds is all
digits, what follows does not start with a digit, and the accumulated
value never exceeds 2^63, the loop returns that value and the tail. -/
theorem leadingInt_digits (ds : List Char) :
    ∀ (rest : List Char) (x : Nat),
      (∀ c ∈ ds, isDigitCh c = true) →
      (∀ c rest', rest = c :: rest' → isDigitCh c = false) →
      valFrom x ds ≤ 2 ^ 63 →
      leadingInt (ds ++ rest) x = some (valFrom x ds, rest) := by
  induction ds with
  | nil =>
      intro rest x _ hrest _
      cases rest with
      | nil => rfl
      | cons c rest' => simp [leadingInt, hrest c rest' rfl, valFrom_nil]
  | cons c ds ih =>
      intro rest x hds hrest hval
      have hc : isDigitCh c = true := hds c (List.mem_cons_self c ds)
      have hstep : x * 10 + chDigit c ≤ valFrom x (c :: ds) := by
        rw [valFrom_cons]
        exact valFrom_ge _ ds
      have hx10 : x * 10 ≤ 2 ^ 63 := le_trans (by omega) (le_trans hstep hval)
      have hxdiv : ¬ x > 2 ^ 63 / 10 := by
        rw [not_lt, Nat.le_div_iff_mul_le (by omega)]
        exact hx10
      have hx' : ¬ x * 10 + chDigit c > 2 ^ 63 :=
        not_lt.mpr (le_trans hstep hval)
      simp only [List.cons_append, leadingInt, hc, if_true, if_neg hxdiv, if_neg hx',
        List.append_eq]
      rw [ih rest (x * 10 + chDigit c) (fun d hd => hds d (List.mem_cons_of_mem c hd))
        hrest (by rw [valFrom_cons] at hval; exact hval)]
      rw [valFrom_cons]

/-- Accumulator lemma for the fmtInt loop, in the style of the digit
printers: printing onto acc is printing onto nothing and appending. -/
theorem fmtIntAux_acc (fuel : Nat) : ∀ (v : Nat) (acc : List Char),
    fmtIntAux fuel v acc = fmtIntAux fuel v [] ++ acc := by
  induction fuel with
  | zero => intro v acc; simp [fmtIntAux]
  | succ fuel ih =>
      intro v acc
      by_cases hv : v = 0
      · simp [fmtIntAux, hv]
      · simp only [fmtIntAux, if_neg hv]
        rw [ih (v / 10) (digitChar (v % 10) :: acc),
            ih (v / 10) [digitChar (v % 10)], List.append_assoc]
        rfl

/-- Fuel irrelevance for the fmtInt loop: any fuel at least v prints the
same digits. -/
theorem fmtIntAux_fuel (v : Nat) : ∀ fuel1 fuel2 : Nat, v ≤ fuel1 → v ≤ fuel2 →
    ∀ acc : List Char, fmtIntAux fuel1 v acc = fmtIntAux fuel2 v acc := by
  induction v using Nat.strong_induction_on with
  | _ v ih =>
      intro fuel1 fuel2 h1 h2 acc
      cases fuel1 with
      | zero =>
          cases fuel2 with
          | zero => rfl
          | succ f2 =>
              have : v = 0 := by omega
              simp [fmtIntAux, this]
      | succ f1 =>
          cases fuel2 with
          | zero =>
              have : v = 0 := by omega
              simp [fmtIntAux, this]
          | succ f2 =>
              by_cases hv : v = 0
              · simp [fmtIntAux, hv]
              · simp only [fmtIntAux, if_neg hv]
                exact ih (v / 10) (by omega) f1 f2 (by omega) (by omega) _

/-- Digits the fmtInt loop prints for v (empty for v = 0). -/
def digitsRec (v : Nat) : List Char := fmtIntAux v v []

theorem digitsRec_step (v : Nat) (hv : v ≠ 0) :
    digitsRec v = digitsRec (v / 10) ++ [digitChar (v % 10)] := by
  unfold digitsRec
  cases hfv : v with
  | zero => exact absurd hfv hv
  | succ f =>
      rw [← hfv]
      have h1 : fmtIntAux v v [] = fmtIntAux (f + 1) v [] := by rw [hfv]
      rw [h1]
      simp only [fmtIntAux, if_neg hv]
      rw [fmtIntAux_acc]
      rw [fmtIntAux_fuel (v / 10) f (v / 10) (by omega) (Nat.le_refl _)]

theorem chDigit_digitChar (m : Nat) (h : m < 10) : chDigit (digitChar m) = m := by
  interval_cases m <;> decide

theorem isDigitCh_digitChar (m : Nat) (h : m < 10) : isDigitCh (digitChar m) = true := by
  interval_cases m <;> decide

theorem valFrom_digitsRec (v : Nat) : valFrom 0 (digitsRec v) = v := by
  induction v using Nat.strong_induction_on with
  | _ v ih =>
      by_cases hv : v = 0
      · subst hv; rfl
      · rw [digitsRec_step v hv, valFrom_append,
          ih (v / 10) (Nat.div_lt_self (by omega) (by omega)), valFrom_cons, valFrom_nil,
          chDigit_digitChar (v % 10) (Nat.mod_lt v (by omega))]
        omega

theorem digitsRec_all_digits (v : Nat) :
    ∀ c ∈ digitsRec v, isDigitCh c = true := by
  induction v using Nat.strong_induction_on with
  | _ v ih =>
      by_cases hv : v = 0
      · subst hv; intro c hc; cases hc
      · rw [digitsRec_step v hv]
        intro c hc
        rcases List.mem_append.mp hc with hc | hc
        · exact ih (v / 10) (Nat.div_lt_self (by omega) (by omega)) c hc
        · rcases List.mem_singleton.mp hc with rfl
          exact isDigitCh_digitChar (v % 10) (Nat.mod_lt v (by omega))

theorem digitsRec_ne_nil (v : Nat) (hv : v ≠ 0) : digitsRec v ≠ [] := by
  rw [digitsRec_step v hv]
  simp

theorem fmtInt_eq (v : Nat) : fmtInt v = if v = 0 then ['0'] else digitsRec v := rfl

theorem valFrom_fmtInt (v : Nat) : valFrom 0 (fmtInt v) = v := by
  rw [fmtInt_eq]
  by_cases hv : v = 0
  · subst hv; rfl
  · rw [if_neg hv]; exact valFrom_digitsRec v

theorem fmtInt_all_digits (v : Nat) : ∀ c ∈ fmtInt v, isDigitCh c = true := by
  rw [fmtInt_eq]
  by_cases hv : v = 0
  · subst hv; intro c hc; rcases List.mem_singleton.mp hc with rfl; decide
  · rw [if_neg hv]; exact digitsRec_all_digits v

theorem fmtInt_ne_nil (v : Nat) : fmtInt v ≠ [] := by
  rw [fmtInt_eq]
  by_cases hv : v = 0
  · subst hv; simp
  · rw [if_neg hv]; exact digitsRec_ne_nil v hv

/-- The low p decimal digits of n, most significant first, leading zeros
kept: the digits the fmtFrac loop prints once printing has started. -/
def digitsBEPad : Nat → Nat → List Char
  | 0, _ => []
  | p + 1, n => digitsBEPad p (n / 10) ++ [digitChar (n % 10)]

theorem length_digitsBEPad (p : Nat) : ∀ n, (digitsBEPad p n).length = p := by
  induction p with
  | zero => intro n; rfl
  | succ p ih => intro n; simp [digitsBEPad, ih]

theorem digitsBEPad_all_digits (p : Nat) : ∀ n, ∀ c ∈ digitsBEPad p n, isDigitCh c = true := by
  induction p with
  | zero => intro n c hc; cases hc
  | succ p ih =>
      intro n c hc
      rcases List.mem_append.mp hc with hc | hc
      · exact ih (n / 10) c hc
      · rcases List.mem_singleton.mp hc with rfl
        exact isDigitCh_digitChar (n % 10) (Nat.mod_lt n (by omega))

theorem valFrom_digitsBEPad (p : Nat) : ∀ n a,
    valFrom a (digitsBEPad p n) = a * 10 ^ p + n % 10 ^ p := by
  induction p with
  | zero => intro n a; simp [digitsBEPad, valFrom_nil, Nat.mod_one]
  | succ p ih =>
      intro n a
      rw [digitsBEPad, valFrom_append, ih (n / 10) a, valFrom_cons, valFrom_nil,
        chDigit_digitChar (n % 10) (Nat.mod_lt n (by omega)),
        show (10 : Nat) ^ (p + 1) = 10 * 10 ^ p from by ring]
      have h3 : n % (10 * 10 ^ p) = n % 10 + 10 * (n / 10 % 10 ^ p) := Nat.mod_mul
      have h5 : a * (10 * 10 ^ p) = 10 * (a * 10 ^ p) := by ring
      omega

/-- The digits the fmtFrac loop prints when it starts with printing off:
trailing zeros of the p-digit fraction are skipped, the rest is printed. -/
def fracStrip : Nat → Nat → List Char
  | 0, _ => []
  | p + 1, v => if v % 10 = 0 then fracStrip p (v / 10) else digitsBEPad (p + 1) v

theorem fracStrip_all_digits (p : Nat) : ∀ v, ∀ c ∈ fracStrip p v, isDigitCh c = true := by
  induction p with
  | zero => intro v c hc; cases hc
  | succ p ih =>
      intro v c hc
      rw [fracStrip] at hc
      by_cases hv : v % 10 = 0
      · rw [if_pos hv] at hc; exact ih (v / 10) c hc
      · rw [if_neg hv] at hc; exact digitsBEPad_all_digits (p + 1) v c hc

theorem fracStrip_length_le (p : Nat) : ∀ v, (fracStrip p v).length ≤ p := by
  induction p with
  | zero => intro v; simp [fracStrip]
  | succ p ih =>
      intro v
      rw [fracStrip]
      by_cases hv : v % 10 = 0
      · rw [if_pos hv]; exact le_trans (ih (v / 10)) (by omega)
      · rw [if_neg hv, length_digitsBEPad]

theorem fracStrip_of_mod_eq_zero (p : Nat) : ∀ v, v % 10 ^ p = 0 → fracStrip p v = [] := by
  induction p with
  | zero => intro v _; rfl
  | succ p ih =>
      intro v hv
      rw [show (10 : Nat) ^ (p + 1) = 10 * 10 ^ p from by ring] at hv
      have h3 : v % (10 * 10 ^ p) = v % 10 + 10 * (v / 10 % 10 ^ p) := Nat.mod_mul
      have hmp : v / 10 % 10 ^ p < 10 ^ p := Nat.mod_lt _ (Nat.pos_pow_of_pos p (by omega))
      have h1 : v % 10 = 0 := by omega
      rw [fracStrip, if_pos h1]
      exact ih (v / 10) (by omega)

theorem fracStrip_val (p : Nat) : ∀ v,
    valFrom 0 (fracStrip p v) * 10 ^ (p - (fracStrip p v).length) = v % 10 ^ p := by
  induction p with
  | zero => intro v; simp [fracStrip, valFrom_nil, Nat.mod_one]
  | succ p ih =>
      intro v
      have h3 : v % (10 * 10 ^ p) = v % 10 + 10 * (v / 10 % 10 ^ p) := Nat.mod_mul
      rw [fracStrip, show (10 : Nat) ^ (p + 1) = 10 * 10 ^ p from by ring]
      by_cases hv : v % 10 = 0
      · rw [if_pos hv]
        have hlen := fracStrip_length_le p (v / 10)
        have h5 : p + 1 - (fracStrip p (v / 10)).length =
            (p - (fracStrip p (v / 10)).length) + 1 := by omega
        rw [h5, pow_succ, ← Nat.mul_assoc, ih (v / 10)]
        omega
      · rw [if_neg hv, length_digitsBEPad, Nat.sub_self, pow_zero, Nat.mul_one,
          valFrom_digitsBEPad, show (10 : Nat) ^ (p + 1) = 10 * 10 ^ p from by ring]
        omega

theorem fracStrip_ne_nil (p v : Nat) (h : v % 10 ^ p ≠ 0) : fracStrip p v ≠ [] := by
  intro hcon
  have := fracStrip_val p v
  rw [hcon] at this
  simp [valFrom_nil] at this
  exact h this.symm

theorem fracStrip_val_pos (p v : Nat) (h : v % 10 ^ p ≠ 0) :
    0 < valFrom 0 (fracStrip p v) := by
  rcases Nat.eq_zero_or_pos (valFrom 0 (fracStrip p v)) with h0 | h0
  · exfalso
    have := fracStrip_val p v
    rw [h0] at this
    simp at this
    exact h this.symm
  · exact h0

theorem fmtFracLoop_print (prec : Nat) : ∀ (v : Nat) (acc : List Char),
    fmtFracLoop v prec true acc = (digitsBEPad prec v ++ acc, v / 10 ^ prec, true) := by
  induction prec with
  | zero => intro v acc; simp [fmtFracLoop, digitsBEPad, Nat.div_one]
  | succ p ih =>
      intro v acc
      simp only [fmtFracLoop, Bool.true_or]
      rw [if_pos trivial, ih (v / 10) (digitChar (v % 10) :: acc)]
      rw [digitsBEPad, List.append_assoc, List.cons_append, List.nil_append]
      rw [Nat.div_div_eq_div_mul, show 10 * 10 ^ p = 10 ^ (p + 1) from by ring]

theorem fmtFracLoop_noprint (prec : Nat) : ∀ (v : Nat) (acc : List Char),
    fmtFracLoop v prec false acc =
      (fracStrip prec v ++ acc, v / 10 ^ prec, decide (v % 10 ^ prec ≠ 0)) := by
  induction prec with
  | zero => intro v acc; simp [fmtFracLoop, fracStrip, Nat.div_one, Nat.mod_one]
  | succ p ih =>
      intro v acc
      have h3 : v % (10 * 10 ^ p) = v % 10 + 10 * (v / 10 % 10 ^ p) := Nat.mod_mul
      simp only [fmtFracLoop, Bool.false_or]
      by_cases hv : v % 10 = 0
      · have hd : decide (v % 10 ≠ 0) = false := by simp [hv]
        rw [hd, if_neg (by simp), ih (v / 10) acc]
        have e1 : fracStrip (p + 1) v = fracStrip p (v / 10) := by
          rw [fracStrip, if_pos hv]
        have e2 : v / 10 / 10 ^ p = v / 10 ^ (p + 1) := by
          rw [Nat.div_div_eq_div_mul, show 10 * 10 ^ p = 10 ^ (p + 1) from by ring]
        have e3 : decide (v / 10 % 10 ^ p ≠ 0) = decide (v % 10 ^ (p + 1) ≠ 0) :=
          decide_eq_decide.mpr (by
            rw [show (10 : Nat) ^ (p + 1) = 10 * 10 ^ p from by ring]
            omega)
        rw [e1, e2, e3]
      · have hd : decide (v % 10 ≠ 0) = true := by simp [hv]
        rw [hd, if_pos rfl, fmtFracLoop_print p (v / 10) (digitChar (v % 10) :: acc)]
        have e1 : fracStrip (p + 1) v = digitsBEPad p (v / 10) ++ [digitChar (v % 10)] := by
          rw [fracStrip, if_neg hv, digitsBEPad]
        have e2 : v / 10 / 10 ^ p = v / 10 ^ (p + 1) := by
          rw [Nat.div_div_eq_div_mul, show 10 * 10 ^ p = 10 ^ (p + 1) from by ring]
        have e3 : (true : Bool) = decide (v % 10 ^ (p + 1) ≠ 0) := by
          symm
          apply decide_eq_true
          rw [show (10 : Nat) ^ (p + 1) = 10 * 10 ^ p from by ring]
          omega
        rw [e1, e2, ← e3, List.append_assoc, List.cons_append, List.nil_append]

/-- What fmtFrac prints: nothing when the prec-digit fraction is zero,
otherwise a dot and the fraction digits with trailing zeros stripped;
the returned value is always v with the fraction digits shifted out. -/
theorem fmtFrac_spec (v prec : Nat) :
    fmtFrac v prec =
      (if v % 10 ^ prec = 0 then ([] : List Char) else '.' :: fracStrip prec v,
       v / 10 ^ prec) := by
  unfold fmtFrac
  rw [fmtFracLoop_noprint prec v []]
  dsimp only
  by_cases hr : v % 10 ^ prec = 0
  · rw [if_pos hr]
    have hd : decide (v % 10 ^ prec ≠ 0) = false := by simp [hr]
    rw [hd, if_neg Bool.false_ne_true, List.append_nil]
    rw [fracStrip_of_mod_eq_zero prec v hr]
  · rw [if_neg hr]
    have hd : decide (v % 10 ^ prec ≠ 0) = true := by simp [hr]
    rw [hd, if_pos rfl, List.append_nil]

/-- Go leadingFraction consumes exactly a printed fraction-digit block,
multiplying the scale by 10 per digit, provided the value stays below
2^63 (true of every block the printer emits). -/
theorem leadingFraction_digits (ds : List Char) :
    ∀ (rest : List Char) (x sc : Nat),
      (∀ c ∈ ds, isDigitCh c = true) →
      (∀ c rest', rest = c :: rest' → isDigitCh c = false) →
      valFrom x ds ≤ 2 ^ 63 - 1 →
      leadingFraction (ds ++ rest) x sc false =
        (valFrom x ds, sc * 10 ^ ds.length, rest) := by
  induction ds with
  | nil =>
      intro rest x sc _ hrest _
      cases rest with
      | nil => simp [leadingFraction, valFrom_nil]
      | cons c rest' =>
          have hc : isDigitCh c = false := hrest c rest' rfl
          simp [leadingFraction, hc, valFrom_nil]
  | cons c ds ih =>
      intro rest x sc hds hrest hval
      have hc : isDigitCh c = true := hds c (List.mem_cons_self c ds)
      have hvalc : valFrom (x * 10 + chDigit c) ds ≤ 2 ^ 63 - 1 := by
        rw [← valFrom_cons]
        exact hval
      have hstep : x * 10 + chDigit c ≤ valFrom x (c :: ds) := by
        rw [valFrom_cons]
        exact valFrom_ge _ ds
      have hxdiv : ¬ x > (2 ^ 63 - 1) / 10 := by
        rw [not_lt, Nat.le_div_iff_mul_le (by omega)]
        have := le_trans hstep hval
        omega
      have hy : ¬ x * 10 + chDigit c > 2 ^ 63 := by
        have := le_trans hstep hval
        omega
      rw [List.cons_append]
      simp only [leadingFraction]
      rw [if_neg (not_not_intro hc), if_neg Bool.false_ne_true, if_neg hxdiv,
        if_neg hy, ih rest (x * 10 + chDigit c) (sc * 10)
          (fun d hd => hds d (List.mem_cons_of_mem c hd)) hrest hvalc]
      rw [valFrom_cons, List.length_cons,
        show sc * 10 * 10 ^ ds.length = sc * 10 ^ (ds.length + 1) from by ring]

/-- The unit token scan stops exactly at the end of a printed unit when
what follows is empty or starts a new digit block. -/
theorem unitLen_append (us : List Char) :
    ∀ rest : List Char,
      (∀ c ∈ us, (c = '.' ∨ isDigitCh c = true) → False) →
      (rest = [] ∨ ∃ c r', rest = c :: r' ∧ isDigitCh c = true) →
      unitLen (us ++ rest) = us.length := by
  induction us with
  | nil =>
      intro rest _ hrest
      rcases hrest with rfl | ⟨c, r', rfl, hc⟩
      · rfl
      · simp only [List.nil_append, unitLen, List.length_nil]
        rw [if_pos (Or.inr hc)]
  | cons c us ih =>
      intro rest hus hrest
      rw [List.cons_append]
      simp only [unitLen, List.length_cons]
      rw [if_neg (hus c (List.mem_cons_self c us)),
        ih rest (fun d hd => hus d (List.mem_cons_of_mem c hd)) hrest]

/-- parseFrac on input that does not start with a dot consumes nothing. -/
theorem parseFrac_no_dot (s1 : List Char)
    (h : ∀ s1' : List Char, s1 ≠ '.' :: s1') : parseFrac s1 = (0, 1, s1, false) := by
  cases s1 with
  | nil => rfl
  | cons c t =>
      rw [parseFrac.eq_def]
      split
      · next s1' heq => exact absurd heq (h s1')
      · rfl

/-- parseFrac on a dot followed by a printed fraction-digit block. -/
theorem parseFrac_dot (fs rest : List Char) (hfs : fs ≠ [])
    (hds : ∀ c ∈ fs, isDigitCh c = true)
    (hrest : ∀ c rest', rest = c :: rest' → isDigitCh c = false)
    (hval : valFrom 0 fs ≤ 2 ^ 63 - 1) :
    parseFrac ('.' :: (fs ++ rest)) = (valFrom 0 fs, 10 ^ fs.length, rest, true) := by
  simp only [parseFrac]
  rw [leadingFraction_digits fs rest 0 1 hds hrest hval]
  have hlen : (fs ++ rest).length ≠ rest.length := by
    cases fs with
    | nil => exact absurd rfl hfs
    | cons a l => simp [List.length_append]; omega
  simp [Nat.one_mul, hlen.symm, hfs]

/-- One component of a printed duration ("digits[.fraction]unit") is
consumed by one pass of the ParseDuration loop, adding the component value
v * unit + f * unit / sc to the accumulator, provided every overflow guard
has headroom (true of all printer output below 2^63). -/
theorem parseLoop_component (fuel : Nat) (ds fr us rest : List Char)
    (d v f sc unit : Nat)
    (hds_nil : ds ≠ [])
    (hds_dig : ∀ c ∈ ds, isDigitCh c = true)
    (hv : valFrom 0 ds = v)
    (hfr : (fr = [] ∧ f = 0 ∧ sc = 1) ∨
           (∃ fs : List Char, fr = '.' :: fs ∧ fs ≠ [] ∧
              (∀ c ∈ fs, isDigitCh c = true) ∧ valFrom 0 fs = f ∧ 0 < f ∧
              f ≤ 2 ^ 63 - 1 ∧ sc = 10 ^ fs.length))
    (hus_val : unitVal us = some unit)
    (hus_nil : us ≠ [])
    (hus_ch : ∀ c ∈ us, (c = '.' ∨ isDigitCh c = true) → False)
    (hrest : rest = [] ∨ ∃ c r', rest = c :: r' ∧ isDigitCh c = true)
    (hvb : v ≤ 2 ^ 63)
    (hunit : 0 < unit)
    (hov1 : v * unit ≤ 2 ^ 63)
    (hov2 : v * unit + f * unit / sc ≤ 2 ^ 63)
    (hd : d + (v * unit + f * unit / sc) ≤ 2 ^ 63) :
    parseLoop (fuel + 1) (ds ++ (fr ++ (us ++ rest))) d =
      parseLoop fuel rest (d + (v * unit + f * unit / sc)) := by
  obtain ⟨c, ds', rfl⟩ : ∃ c ds', ds = c :: ds' := by
    cases ds with
    | nil => exact absurd rfl hds_nil
    | cons a l => exact ⟨a, l, rfl⟩
  have hc : isDigitCh c = true := hds_dig c (List.mem_cons_self c ds')
  have husheadne : ∀ u us', us = u :: us' → isDigitCh u = false ∧ u ≠ '.' := by
    intro u us' hequ
    subst hequ
    constructor
    · cases hu : isDigitCh u with
      | false => rfl
      | true => exact absurd (hus_ch u (List.mem_cons_self u us') (Or.inr hu)) not_false
    · intro hdot
      exact hus_ch u (List.mem_cons_self u us') (Or.inl hdot)
  have hushead : ∀ c₂ r₂, us ++ rest = c₂ :: r₂ → isDigitCh c₂ = false := by
    intro c₂ r₂ heq
    cases us with
    | nil => exact absurd rfl hus_nil
    | cons u us' =>
        rw [List.cons_append] at heq
        injection heq with h1 h2
        rw [← h1]
        exact (husheadne u us' rfl).1
  have hhead : ∀ c₂ r₂, fr ++ (us ++ rest) = c₂ :: r₂ → isDigitCh c₂ = false := by
    intro c₂ r₂ heq
    rcases hfr with ⟨rfl, _, _⟩ | ⟨fs, rfl, _⟩
    · rw [List.nil_append] at heq
      exact hushead c₂ r₂ heq
    · rw [List.cons_append] at heq
      injection heq with h1 h2
      rw [← h1]
      decide
  have hli : leadingInt (c :: (ds' ++ (fr ++ (us ++ rest)))) 0 =
      some (v, fr ++ (us ++ rest)) := by
    have := leadingInt_digits (c :: ds') (fr ++ (us ++ rest)) 0 hds_dig hhead
      (by rw [hv]; exact hvb)
    rw [List.cons_append] at this
    rw [this, hv]
  have hlen : ((fr ++ (us ++ rest)).length ≠
      (c :: (ds' ++ (fr ++ (us ++ rest)))).length) := by
    simp [List.length_append]
    omega
  rw [List.cons_append]
  simp only [parseLoop, if_neg (not_not_intro (Or.inr hc)), hli]
  rw [show decide ((fr ++ (us ++ rest)).length ≠
      (c :: (ds' ++ (fr ++ (us ++ rest)))).length) = true from decide_eq_true hlen]
  have husrest_nodot : ∀ s1' : List Char, us ++ rest ≠ '.' :: s1' := by
    intro s1' heq
    cases us with
    | nil => exact absurd rfl hus_nil
    | cons u us' =>
        rw [List.cons_append] at heq
        injection heq with h1 h2
        exact (husheadne u us' rfl).2 h1
  have hi : unitLen (us ++ rest) = us.length := unitLen_append us rest hus_ch hrest
  have hine : us.length ≠ 0 := by
    cases us with
    | nil => exact absurd rfl hus_nil
    | cons u us' => simp
  have htake : (us ++ rest).take us.length = us := List.take_left us rest
  have hdrop : (us ++ rest).drop us.length = rest := List.drop_left us rest
  have hguard1 : ¬ v > 2 ^ 63 / unit :=
    not_lt.mpr ((Nat.le_div_iff_mul_le hunit).mpr hov1)
  have hmod : u64Mod = 18446744073709551616 := rfl
  rcases hfr with ⟨rfl, rfl, rfl⟩ | ⟨fs, rfl, hfs_nil, hfs_dig, hfsval, hfpos, hfbound, rfl⟩
  · rw [List.nil_append]
    rw [parseFrac_no_dot (us ++ rest) husrest_nodot]
    simp only []
    rw [if_neg (fun hcon => hcon.1 trivial)]
    rw [hi, if_neg hine, htake, hus_val, hdrop]
    dsimp only
    rw [if_neg hguard1]
    rw [if_neg (by omega : ¬ (0 : Nat) > 0)]
    rw [if_neg (fun hcon => absurd hcon.1 (by omega))]
    have hdv : d + v * unit < u64Mod := by
      have h0 : (0 : Nat) * unit / 1 = 0 := by simp
      rw [h0] at hd
      omega
    rw [show u64 (d + v * unit) = d + v * unit from u64_small hdv]
    rw [if_neg (by
      have h0 : (0 : Nat) * unit / 1 = 0 := by simp
      rw [h0] at hd
      omega : ¬ d + v * unit > 2 ^ 63)]
    rw [show (0 : Nat) * unit / 1 = 0 from by simp, Nat.add_zero]
  · rw [List.cons_append]
    rw [parseFrac_dot fs (us ++ rest) hfs_nil hfs_dig hushead
      (by rw [hfsval]; exact hfbound), hfsval]
    simp only []
    rw [if_neg (fun hcon => hcon.1 trivial)]
    rw [hi, if_neg hine, htake, hus_val, hdrop]
    dsimp only
    rw [if_neg hguard1]
    rw [if_pos hfpos]
    rw [show u64 (v * unit + f * unit / 10 ^ fs.length) =
        v * unit + f * unit / 10 ^ fs.length from u64_small (by omega)]
    rw [if_neg (fun hcon => absurd hcon.2 (by omega))]
    rw [show u64 (d + (v * unit + f * unit / 10 ^ fs.length)) =
        d + (v * unit + f * unit / 10 ^ fs.length) from u64_small (by omega)]
    rw [if_neg (by omega : ¬ d + (v * unit + f * unit / 10 ^ fs.length) > 2 ^ 63)]

/-- The exact fractional contribution: f scaled back up by the unit equals
the stripped fraction value. -/
theorem frac_contrib (prec len f r : Nat) (hlen : len ≤ prec)
    (hval : f * 10 ^ (prec - len) = r) : f * 10 ^ prec / 10 ^ len = r := by
  have hsplit : (10 : Nat) ^ prec = 10 ^ len * 10 ^ (prec - len) := by
    rw [← pow_add]
    congr 1
    omega
  rw [hsplit,
    show f * (10 ^ len * 10 ^ (prec - len)) = f * 10 ^ (prec - len) * 10 ^ len from by ring,
    Nat.mul_div_cancel _ (Nat.pos_pow_of_pos len (by omega)), hval]

/-- A printed integer block starts with a digit. -/
theorem fmtInt_head_digit (v : Nat) (X : List Char) :
    ∃ c r', fmtInt v ++ X = c :: r' ∧ isDigitCh c = true := by
  cases hfm : fmtInt v with
  | nil => exact absurd hfm (fmtInt_ne_nil v)
  | cons a l =>
      refine ⟨a, l ++ X, by rw [List.cons_append], ?_⟩
      apply fmtInt_all_digits v a
      rw [hfm]
      exact List.mem_cons_self a l

/-- A fraction-free component (hours, minutes): one loop pass adds
q * unit. -/
theorem parseLoop_bare_component (fuel q unit : Nat) (us rest : List Char) (d : Nat)
    (hus_val : unitVal us = some unit)
    (hus_nil : us ≠ [])
    (hus_ch : ∀ c ∈ us, (c = '.' ∨ isDigitCh c = true) → False)
    (hrest : rest = [] ∨ ∃ c r', rest = c :: r' ∧ isDigitCh c = true)
    (hunit : 0 < unit)
    (hov : q * unit ≤ 2 ^ 63)
    (hd : d + q * unit ≤ 2 ^ 63) :
    parseLoop (fuel + 1) (fmtInt q ++ (us ++ rest)) d = parseLoop fuel rest (d + q * unit) := by
  have hq : q ≤ 2 ^ 63 := le_trans (Nat.le_mul_of_pos_right q hunit) hov
  have h := parseLoop_component fuel (fmtInt q) [] us rest d q 0 1 unit
    (fmtInt_ne_nil q) (fmtInt_all_digits q) (valFrom_fmtInt q)
    (Or.inl ⟨rfl, rfl, rfl⟩) hus_val hus_nil hus_ch hrest hq hunit hov
    (by simpa using hov) (by simpa using hd)
  rw [List.nil_append] at h
  rw [h]
  have hz : (0 : Nat) * unit / 1 = 0 := by simp
  rw [hz, Nat.add_zero]

/-- The last component of a printed duration (the seconds block, or the
whole sub-second form): integer part q, fraction digits of w to prec
places, unit 10^prec, nothing after; the loop finishes with the exact
value added. -/
theorem parseLoop_final (fuel prec w q d : Nat) (us : List Char)
    (hus_val : unitVal us = some (10 ^ prec))
    (hus_nil : us ≠ [])
    (hus_ch : ∀ c ∈ us, (c = '.' ∨ isDigitCh c = true) → False)
    (hprec : 10 ^ prec ≤ 2 ^ 63)
    (hqb : q * 10 ^ prec ≤ 2 ^ 63)
    (hd : d + (q * 10 ^ prec + w % 10 ^ prec) ≤ 2 ^ 63) :
    parseLoop (fuel + 2)
      (fmtInt q ++ ((if w % 10 ^ prec = 0 then [] else '.' :: fracStrip prec w) ++ us)) d
      = .ok (d + (q * 10 ^ prec + w % 10 ^ prec)) := by
  have hppos : 0 < 10 ^ prec := Nat.pos_pow_of_pos prec (by omega)
  have hq : q ≤ 2 ^ 63 := le_trans (Nat.le_mul_of_pos_right q hppos) hqb
  by_cases hw : w % 10 ^ prec = 0
  · rw [if_pos hw]
    have h := parseLoop_component (fuel + 1) (fmtInt q) [] us [] d q 0 1 (10 ^ prec)
      (fmtInt_ne_nil q) (fmtInt_all_digits q) (valFrom_fmtInt q)
      (Or.inl ⟨rfl, rfl, rfl⟩) hus_val hus_nil hus_ch (Or.inl rfl) hq hppos hqb
      (by simpa using hqb) (by simp only [Nat.zero_mul, Nat.zero_div, Nat.add_zero]; omega)
    rw [List.nil_append, List.append_nil] at h
    show parseLoop (fuel + 1 + 1) (fmtInt q ++ ([] ++ us)) d = _
    rw [List.nil_append, h]
    simp only [parseLoop, Nat.zero_mul, Nat.zero_div, Nat.add_zero, hw]
  · rw [if_neg hw]
    have hfs_nil : fracStrip prec w ≠ [] := fracStrip_ne_nil prec w hw
    have hfs_dig : ∀ c ∈ fracStrip prec w, isDigitCh c = true := fracStrip_all_digits prec w
    have hlen : (fracStrip prec w).length ≤ prec := fracStrip_length_le prec w
    have hfval : valFrom 0 (fracStrip prec w) * 10 ^ (prec - (fracStrip prec w).length) =
        w % 10 ^ prec := fracStrip_val prec w
    have hfpos : 0 < valFrom 0 (fracStrip prec w) := fracStrip_val_pos prec w hw
    have hmodlt : w % 10 ^ prec < 10 ^ prec := Nat.mod_lt w hppos
    have hfle : valFrom 0 (fracStrip prec w) ≤ 2 ^ 63 - 1 := by
      have h1 : valFrom 0 (fracStrip prec w) ≤ w % 10 ^ prec := by
        calc valFrom 0 (fracStrip prec w)
            ≤ valFrom 0 (fracStrip prec w) * 10 ^ (prec - (fracStrip prec w).length) :=
              Nat.le_mul_of_pos_right _ (Nat.pos_pow_of_pos _ (by omega))
          _ = w % 10 ^ prec := hfval
      omega
    have hcontrib : valFrom 0 (fracStrip prec w) * 10 ^ prec /
        10 ^ (fracStrip prec w).length = w % 10 ^ prec :=
      frac_contrib prec (fracStrip prec w).length _ _ hlen hfval
    have h := parseLoop_component (fuel + 1) (fmtInt q) ('.' :: fracStrip prec w) us []
      d q (valFrom 0 (fracStrip prec w)) (10 ^ (fracStrip prec w).length) (10 ^ prec)
      (fmtInt_ne_nil q) (fmtInt_all_digits q) (valFrom_fmtInt q)
      (Or.inr ⟨fracStrip prec w, rfl, hfs_nil, hfs_dig, rfl, hfpos, hfle, rfl⟩)
      hus_val hus_nil hus_ch (Or.inl rfl) hq hppos hqb
      (by rw [hcontrib]; omega) (by rw [hcontrib]; omega)
    rw [List.append_nil] at h
    show parseLoop (fuel + 1 + 1) _ d = _
    rw [h, hcontrib]
    simp only [parseLoop]

/-- ParseDuration reads the printed body of any uint64 magnitude up to 2^63
back to exactly that magnitude, for any fuel at least the body length. -/
theorem parseLoop_durationBody (u : Nat) (hu : u ≤ 2 ^ 63) (fuel : Nat)
    (hfuel : (durationBody u).length ≤ fuel) :
    parseLoop fuel (durationBody u) 0 = .ok u := by
  by_cases h9 : u < 1000000000
  · by_cases h0 : u = 0
    · subst h0
      have hbody : durationBody 0 = ['0', 's'] := by
        unfold durationBody
        norm_num
      rw [hbody] at hfuel ⊢
      obtain ⟨f, rfl⟩ : ∃ f, fuel = f + 2 := ⟨fuel - 2, by simp at hfuel; omega⟩
      have h := parseLoop_final f 9 0 0 0 ['s'] rfl (by decide) (by decide)
        (by norm_num) (by norm_num) (by norm_num)
      exact h
    · by_cases h3 : u < 1000
      · have hbody : durationBody u = fmtInt u ++ ['n', 's'] := by
          unfold durationBody
          rw [if_pos h9, if_neg h0, if_pos h3]
        rw [hbody] at hfuel ⊢
        simp only [List.length_append, List.length_cons, List.length_nil] at hfuel
        obtain ⟨f, rfl⟩ : ∃ f, fuel = f + 2 := ⟨fuel - 2, by omega⟩
        have h := parseLoop_bare_component (f + 1) u 1 ['n', 's'] [] 0 rfl (by decide)
          (by decide) (Or.inl rfl) (by omega) (by omega) (by omega)
        rw [List.append_nil] at h
        show parseLoop (f + 1 + 1) (fmtInt u ++ ['n', 's']) 0 = _
        rw [h]
        simp only [parseLoop]
        norm_num
      · by_cases h6 : u < 1000000
        · have hbody : durationBody u =
              fmtInt (u / 10 ^ 3) ++
                ((if u % 10 ^ 3 = 0 then ([] : List Char) else '.' :: fracStrip 3 u) ++
                  ['µ', 's']) := by
            unfold durationBody
            rw [if_pos h9, if_neg h0, if_neg h3, if_pos h6, fmtFrac_spec u 3]
            dsimp only
            rw [List.append_assoc]
          rw [hbody] at hfuel ⊢
          simp only [List.length_append, List.length_cons, List.length_nil] at hfuel
          have hl : 1 ≤ (fmtInt (u / 10 ^ 3)).length :=
            List.length_pos.mpr (fmtInt_ne_nil _)
          obtain ⟨f, rfl⟩ : ∃ f, fuel = f + 2 := ⟨fuel - 2, by omega⟩
          rw [parseLoop_final f 3 u (u / 10 ^ 3) 0 ['µ', 's'] (by decide) (by decide)
            (by decide) (by norm_num)
            (le_trans (Nat.div_mul_le_self u _) hu)
            (by
              have := Nat.div_add_mod u (10 ^ 3)
              omega)]
          congr 1
          have := Nat.div_add_mod u (10 ^ 3)
          omega
        · have hbody : durationBody u =
              fmtInt (u / 10 ^ 6) ++
                ((if u % 10 ^ 6 = 0 then ([] : List Char) else '.' :: fracStrip 6 u) ++
                  ['m', 's']) := by
            unfold durationBody
            rw [if_pos h9, if_neg h0, if_neg h3, if_neg h6, fmtFrac_spec u 6]
            dsimp only
            rw [List.append_assoc]
          rw [hbody] at hfuel ⊢
          simp only [List.length_append, List.length_cons, List.length_nil] at hfuel
          have hl : 1 ≤ (fmtInt (u / 10 ^ 6)).length :=
            List.length_pos.mpr (fmtInt_ne_nil _)
          obtain ⟨f, rfl⟩ : ∃ f, fuel = f + 2 := ⟨fuel - 2, by omega⟩
          rw [parseLoop_final f 6 u (u / 10 ^ 6) 0 ['m', 's'] (by decide) (by decide)
            (by decide) (by norm_num)
            (le_trans (Nat.div_mul_le_self u _) hu)
            (by
              have := Nat.div_add_mod u (10 ^ 6)
              omega)]
          congr 1
          have := Nat.div_add_mod u (10 ^ 6)
          omega
  · have e1 := Nat.div_add_mod u (10 ^ 9)
    have e1b : u % 10 ^ 9 < 10 ^ 9 := Nat.mod_lt u (by norm_num)
    have e2 := Nat.div_add_mod (u / 10 ^ 9) 60
    have e2b : u / 10 ^ 9 % 60 < 60 := Nat.mod_lt _ (by norm_num)
    have e3 := Nat.div_add_mod (u / 10 ^ 9 / 60) 60
    have e3b : u / 10 ^ 9 / 60 % 60 < 60 := Nat.mod_lt _ (by norm_num)
    have hqs : u / 10 ^ 9 % 60 * 10 ^ 9 ≤ 2 ^ 63 := by
      calc u / 10 ^ 9 % 60 * 10 ^ 9 ≤ u / 10 ^ 9 * 10 ^ 9 :=
            Nat.mul_le_mul_right _ (Nat.mod_le _ _)
        _ ≤ u := Nat.div_mul_le_self u _
        _ ≤ 2 ^ 63 := hu
    by_cases hm : u / 10 ^ 9 / 60 = 0
    · have hbody : durationBody u = fmtInt (u / 10 ^ 9 % 60) ++
          ((if u % 10 ^ 9 = 0 then ([] : List Char) else '.' :: fracStrip 9 u) ++ ['s']) := by
        unfold durationBody
        rw [if_neg h9, fmtFrac_spec u 9]
        dsimp only
        rw [if_pos hm, List.append_assoc]
      rw [hbody] at hfuel ⊢
      simp only [List.length_append, List.length_cons, List.length_nil] at hfuel
      have hl : 1 ≤ (fmtInt (u / 10 ^ 9 % 60)).length :=
        List.length_pos.mpr (fmtInt_ne_nil _)
      obtain ⟨f, rfl⟩ : ∃ f, fuel = f + 2 := ⟨fuel - 2, by omega⟩
      rw [parseLoop_final f 9 u (u / 10 ^ 9 % 60) 0 ['s'] rfl (by decide) (by decide)
        (by norm_num) hqs (by omega)]
      congr 1
      omega
    · by_cases hh : u / 10 ^ 9 / 60 / 60 = 0
      · have hbody : durationBody u = fmtInt (u / 10 ^ 9 / 60 % 60) ++
            ('m' :: (fmtInt (u / 10 ^ 9 % 60) ++
              ((if u % 10 ^ 9 = 0 then ([] : List Char) else '.' :: fracStrip 9 u) ++
                ['s']))) := by
          unfold durationBody
          rw [if_neg h9, fmtFrac_spec u 9]
          dsimp only
          rw [if_neg hm, if_pos hh, List.append_assoc]
        rw [hbody] at hfuel ⊢
        simp only [List.length_append, List.length_cons, List.length_nil] at hfuel
        have hl : 1 ≤ (fmtInt (u / 10 ^ 9 / 60 % 60)).length :=
          List.length_pos.mpr (fmtInt_ne_nil _)
        obtain ⟨f, rfl⟩ : ∃ f, fuel = f + 3 := ⟨fuel - 3, by omega⟩
        have h1 := parseLoop_bare_component (f + 2) (u / 10 ^ 9 / 60 % 60) 60000000000
          ['m']
          (fmtInt (u / 10 ^ 9 % 60) ++
            ((if u % 10 ^ 9 = 0 then ([] : List Char) else '.' :: fracStrip 9 u) ++ ['s']))
          0 rfl (by decide) (by decide)
          (Or.inr (fmtInt_head_digit _ _)) (by norm_num) (by omega) (by omega)
        rw [show (['m'] : List Char) ++
            (fmtInt (u / 10 ^ 9 % 60) ++
              ((if u % 10 ^ 9 = 0 then ([] : List Char) else '.' :: fracStrip 9 u) ++
                ['s'])) =
            'm' :: (fmtInt (u / 10 ^ 9 % 60) ++
              ((if u % 10 ^ 9 = 0 then ([] : List Char) else '.' :: fracStrip 9 u) ++
                ['s'])) from rfl] at h1
        show parseLoop (f + 2 + 1) _ 0 = _
        rw [h1]
        rw [parseLoop_final f 9 u (u / 10 ^ 9 % 60)
          (0 + u / 10 ^ 9 / 60 % 60 * 60000000000) ['s'] rfl (by decide) (by decide)
          (by norm_num) hqs (by omega)]
        congr 1
        omega
      · have hbody : durationBody u = fmtInt (u / 10 ^ 9 / 60 / 60) ++
            ('h' :: (fmtInt (u / 10 ^ 9 / 60 % 60) ++
              ('m' :: (fmtInt (u / 10 ^ 9 % 60) ++
                ((if u % 10 ^ 9 = 0 then ([] : List Char) else '.' :: fracStrip 9 u) ++
                  ['s']))))) := by
          unfold durationBody
          rw [if_neg h9, fmtFrac_spec u 9]
          dsimp only
          rw [if_neg hm, if_neg hh, List.append_assoc]
        have hdivh : u / 10 ^ 9 / 60 / 60 = u / 3600000000000 := by
          rw [Nat.div_div_eq_div_mul, Nat.div_div_eq_div_mul]
          norm_num
        have hhrs : u / 10 ^ 9 / 60 / 60 * 3600000000000 ≤ 2 ^ 63 := by
          rw [hdivh]
          exact le_trans (Nat.div_mul_le_self u _) hu
        rw [hbody] at hfuel ⊢
        simp only [List.length_append, List.length_cons, List.length_nil] at hfuel
        have hl : 1 ≤ (fmtInt (u / 10 ^ 9 / 60 / 60)).length :=
          List.length_pos.mpr (fmtInt_ne_nil _)
        obtain ⟨f, rfl⟩ : ∃ f, fuel = f + 4 := ⟨fuel - 4, by omega⟩
        have h1 := parseLoop_bare_component (f + 3) (u / 10 ^ 9 / 60 / 60) 3600000000000
          ['h']
          (fmtInt (u / 10 ^ 9 / 60 % 60) ++
            ('m' :: (fmtInt (u / 10 ^ 9 % 60) ++
              ((if u % 10 ^ 9 = 0 then ([] : List Char) else '.' :: fracStrip 9 u) ++
                ['s']))))
          0 rfl (by decide) (by decide)
          (Or.inr (fmtInt_head_digit _ _)) (by norm_num) hhrs (by omega)
        rw [show (['h'] : List Char) ++
            (fmtInt (u / 10 ^ 9 / 60 % 60) ++
              ('m' :: (fmtInt (u / 10 ^ 9 % 60) ++
                ((if u % 10 ^ 9 = 0 then ([] : List Char) else '.' :: fracStrip 9 u) ++
                  ['s'])))) =
            'h' :: (fmtInt (u / 10 ^ 9 / 60 % 60) ++
              ('m' :: (fmtInt (u / 10 ^ 9 % 60) ++
                ((if u % 10 ^ 9 = 0 then ([] : List Char) else '.' :: fracStrip 9 u) ++
                  ['s'])))) from rfl] at h1
        show parseLoop (f + 3 + 1) _ 0 = _
        rw [h1]
        have h2 := parseLoop_bare_component (f + 2) (u / 10 ^ 9 / 60 % 60) 60000000000
          ['m']
          (fmtInt (u / 10 ^ 9 % 60) ++
            ((if u % 10 ^ 9 = 0 then ([] : List Char) else '.' :: fracStrip 9 u) ++ ['s']))
          (0 + u / 10 ^ 9 / 60 / 60 * 3600000000000) rfl (by decide) (by decide)
          (Or.inr (fmtInt_head_digit _ _)) (by norm_num) (by omega)
          (by rw [hdivh] at e3 ⊢; omega)
        rw [show (['m'] : List Char) ++
            (fmtInt (u / 10 ^ 9 % 60) ++
              ((if u % 10 ^ 9 = 0 then ([] : List Char) else '.' :: fracStrip 9 u) ++
                ['s'])) =
            'm' :: (fmtInt (u / 10 ^ 9 % 60) ++
              ((if u % 10 ^ 9 = 0 then ([] : List Char) else '.' :: fracStrip 9 u) ++
                ['s'])) from rfl] at h2
        rw [h2]
        rw [parseLoop_final f 9 u (u / 10 ^ 9 % 60)
          (0 + u / 10 ^ 9 / 60 / 60 * 3600000000000 +
            u / 10 ^ 9 / 60 % 60 * 60000000000) ['s'] rfl (by decide) (by decide)
          (by norm_num) hqs (by rw [hdivh] at e3 ⊢; omega)]
        congr 1
        rw [hdivh] at e3 ⊢
        omega

/-- A printed duration body always starts with a digit. -/
theorem durationBody_head (u : Nat) :
    ∃ c r', durationBody u = c :: r' ∧ isDigitCh c = true := by
  unfold durationBody
  by_cases h9 : u < 1000000000
  · rw [if_pos h9]
    by_cases h0 : u = 0
    · rw [if_pos h0]
      exact ⟨'0', ['s'], rfl, by decide⟩
    · rw [if_neg h0]
      by_cases h3 : u < 1000
      · rw [if_pos h3]
        exact fmtInt_head_digit u _
      · rw [if_neg h3]
        by_cases h6 : u < 1000000
        · rw [if_pos h6, fmtFrac_spec u 3]
          dsimp only
          rw [List.append_assoc]
          exact fmtInt_head_digit _ _
        · rw [if_neg h6, fmtFrac_spec u 6]
          dsimp only
          rw [List.append_assoc]
          exact fmtInt_head_digit _ _
  · rw [if_neg h9, fmtFrac_spec u 9]
    dsimp only
    by_cases hm : u / 10 ^ 9 / 60 = 0
    · rw [if_pos hm, List.append_assoc]
      exact fmtInt_head_digit _ _
    · rw [if_neg hm]
      by_cases hh : u / 10 ^ 9 / 60 / 60 = 0
      · rw [if_pos hh]
        exact fmtInt_head_digit _ _
      · rw [if_neg hh]
        exact fmtInt_head_digit _ _

/-- A printed duration body has at least two characters. -/
theorem durationBody_length2 (u : Nat) : 2 ≤ (durationBody u).length := by
  obtain ⟨c, r', hbody, _⟩ := durationBody_head u
  unfold durationBody at *
  by_cases h9 : u < 1000000000
  · rw [if_pos h9]
    by_cases h0 : u = 0
    · rw [if_pos h0]
      decide
    · rw [if_neg h0]
      by_cases h3 : u < 1000
      · rw [if_pos h3]
        have : 1 ≤ (fmtInt u).length := List.length_pos.mpr (fmtInt_ne_nil u)
        simp only [List.length_append, List.length_cons, List.length_nil]
        omega
      · rw [if_neg h3]
        by_cases h6 : u < 1000000
        · rw [if_pos h6, fmtFrac_spec u 3]
          dsimp only
          have : 1 ≤ (fmtInt (u / 10 ^ 3)).length := List.length_pos.mpr (fmtInt_ne_nil _)
          simp only [List.length_append, List.length_cons, List.length_nil]
          omega
        · rw [if_neg h6, fmtFrac_spec u 6]
          dsimp only
          have : 1 ≤ (fmtInt (u / 10 ^ 6)).length := List.length_pos.mpr (fmtInt_ne_nil _)
          simp only [List.length_append, List.length_cons, List.length_nil]
          omega
  · rw [if_neg h9, fmtFrac_spec u 9]
    dsimp only
    have h1 : 1 ≤ (fmtInt (u / 10 ^ 9 % 60)).length := List.length_pos.mpr (fmtInt_ne_nil _)
    by_cases hm : u / 10 ^ 9 / 60 = 0
    · rw [if_pos hm]
      simp only [List.length_append, List.length_cons, List.length_nil]
      omega
    · rw [if_neg hm]
      by_cases hh : u / 10 ^ 9 / 60 / 60 = 0
      · rw [if_pos hh]
        simp only [List.length_append, List.length_cons, List.length_nil]
        omega
      · rw [if_neg hh]
        simp only [List.length_append, List.length_cons, List.length_nil]
        omega

/-- Round trip of the duration codec on the full int64 range: parsing the
printed form of any int64 duration recovers exactly that duration. -/
theorem parseDuration_durationString (d : Int) (hlo : -(2 ^ 63) ≤ d)
    (hhi : d < 2 ^ 63) : parseDuration (durationString d) = .ok d := by
  have hu : d.natAbs ≤ 2 ^ 63 := by omega
  obtain ⟨c, r', hbody, hc⟩ := durationBody_head d.natAbs
  have hlen2 := durationBody_length2 d.natAbs
  have hne0 : durationBody d.natAbs ≠ ['0'] := by
    intro hcon
    rw [hcon] at hlen2
    simp at hlen2
  have hnenil : durationBody d.natAbs ≠ [] := by
    intro hcon
    rw [hcon] at hlen2
    simp at hlen2
  unfold parseDuration durationString
  by_cases hneg : d < 0
  · rw [if_pos hneg]
    rw [show (String.mk ('-' :: durationBody d.natAbs)).data =
      '-' :: durationBody d.natAbs from rfl]
    rw [show parseSign ('-' :: durationBody d.natAbs) =
      (true, durationBody d.natAbs) from by simp [parseSign]]
    dsimp only
    rw [if_neg hne0, if_neg hnenil]
    rw [parseLoop_durationBody d.natAbs hu (durationBody d.natAbs).length le_rfl]
    dsimp only
    rw [if_pos rfl]
    congr 1
    omega
  · rw [if_neg hneg]
    rw [show (String.mk (durationBody d.natAbs)).data = durationBody d.natAbs from rfl]
    have hcm : c ≠ '-' := by
      intro hcon
      rw [hcon] at hc
      exact absurd hc (by decide)
    have hcp : c ≠ '+' := by
      intro hcon
      rw [hcon] at hc
      exact absurd hc (by decide)
    rw [hbody, show parseSign (c :: r') = (false, c :: r') from by
      simp [parseSign, hcm, hcp], ← hbody]
    dsimp only
    rw [if_neg hne0, if_neg hnenil]
    rw [parseLoop_durationBody d.natAbs hu (durationBody d.natAbs).length le_rfl]
    dsimp only
    rw [if_neg Bool.false_ne_true]
    rw [if_neg (by omega : ¬ d.natAbs > 2 ^ 63 - 1)]
    congr 1
    omega

/-! ### C7: the cache-control codec round-trips -/

/-- C7: encoding any CacheControl writes exactly one metadata entry, under
the single key cache-control:max-age, holding the textual duration
rendering of MaxAge; decoding that metadata returns the identical
CacheControl. The int64 bounds are inherent to the Go time.Duration type
of MaxAge. -/
theorem C7_codec_roundtrip (cc : CacheControl) (hlo : -(2 ^ 63) ≤ cc.MaxAge)
    (hhi : cc.MaxAge < 2 ^ 63) :
    SetCacheControl cc = [("cache-control:max-age", durationString cc.MaxAge)] ∧
    (SetCacheControl cc).length = 1 ∧
    getCacheControl (SetCacheControl cc) = .ok (some cc) := by
  refine ⟨rfl, rfl, ?_⟩
  have hmd : mdLookup (SetCacheControl cc) "cache-control:max-age" =
      some (durationString cc.MaxAge) := by
    simp [SetCacheControl, mdLookup]
  simp only [getCacheControl, hmd]
  rw [parseDuration_durationString cc.MaxAge hlo hhi]

set_option maxRecDepth 40000 in
/-- Witness for C7 at the 250ms directive the spec quotes. -/
theorem C7_witness :
    SetCacheControl ⟨250000000⟩ =
      [("cache-control:max-age", durationString 250000000)] ∧
    (SetCacheControl ⟨250000000⟩).length = 1 ∧
    getCacheControl (SetCacheControl ⟨250000000⟩) = .ok (some ⟨250000000⟩) :=
  C7_codec_roundtrip ⟨250000000⟩ (by decide) (by decide)
